import Mathlib

/-!
Shallow embedding of `quantum_gaussian_toolbox.py` (Gaussian-Quantum-Information
Numerical-Toolbox): the `gaussian_state` class (construction, partial trace,
mode extraction, symplectic eigenvalues, purity, von Neumann entropy, Gaussian
unitaries, homodyne measurement) and the `gaussian_dynamics` class (stability,
steady state, Floquet, semi-classical Langevin).

Modelling conventions:
* numpy float64/complex128 arithmetic is idealised as exact arithmetic in ℂ
  (numpy arrays are dynamically typed; entries may be complex, which matters
  for the constructor's realness check on `R0` and its absence on `V0`).
* A 2-D numpy array of shape (r, c) is a `Mat` (total entry function plus the
  recorded shape); a 1-D array of length r is modelled as an (r, 1) `Mat`
  (`len`, `np.squeeze`-rank and the constructor's `np.vstack` agree on the two
  shapes in every code path used here).
* Python `assert`/`raise`, and numpy shape errors, are `Except Err`.
* `np.linalg.eig` returns the roots (with multiplicity) of the characteristic
  polynomial in an unspecified order: it is modelled relationally by the
  multiset of those roots.
* `np.linalg.solve` and `scipy.linalg.solve_continuous_lyapunov` are external
  library calls modelled by their contracts: they return a solution of the
  corresponding linear equation when one exists (chosen, not computed).
-/

namespace QGT

noncomputable section

open Polynomial

open scoped Classical

/-- A numpy 2-D array: recorded shape plus a total entry function (entries
outside the shape are junk; all comparisons are made within the shape). -/
structure Mat where
  rows : ℕ
  cols : ℕ
  entry : ℕ → ℕ → ℂ

/-- Entrywise equality within the (equal) shapes: how two numpy arrays of the
same shape compare equal. -/
def Mat.EqOn (a b : Mat) : Prop :=
  a.rows = b.rows ∧ a.cols = b.cols ∧
    ∀ i < a.rows, ∀ j < a.cols, a.entry i j = b.entry i j

/-- Embedding of `np.transpose`. -/
def Mat.transpose (A : Mat) : Mat :=
  ⟨A.cols, A.rows, fun i j => A.entry j i⟩

/-- Unchecked matrix product (the arithmetic of `np.matmul` once the shapes
are compatible). -/
def Mat.mulRaw (A B : Mat) : Mat :=
  ⟨A.rows, B.cols, fun i j => ∑ k ∈ Finset.range A.cols, A.entry i k * B.entry k j⟩

/-- Entrywise negation (`-A`). -/
def Mat.neg (A : Mat) : Mat :=
  ⟨A.rows, A.cols, fun i j => -(A.entry i j)⟩

/-- Scalar multiple (`c * A`). -/
def Mat.smul (c : ℂ) (A : Mat) : Mat :=
  ⟨A.rows, A.cols, fun i j => c * A.entry i j⟩

/-- Errors surfaced by the toolbox: Python `AssertionError`s raised by the
various `assert` statements, `ValueError`s raised by numpy on incompatible
shapes, `numpy.linalg.LinAlgError`, and the `TypeError`s raised when a
non-callable is called (or `np.linalg.solve` is handed a function). -/
inductive Err where
  | assertCtor           -- "Unexpected first moments when creating gaussian state!"
  | assertReduction      -- "Partial trace over more states than exists in gaussian state"
  | assertLen            -- transform parameter/mode list length mismatch
  | assertStable         -- "There is no steady state covariance matrix, ..."
  | valueErrorShapes     -- numpy ValueError: shapes not aligned in matmul
  | valueErrorBroadcast  -- numpy ValueError: could not broadcast (slice-assign overflow)
  | linAlgError          -- numpy.linalg.LinAlgError (singular matrix)
  | typeErrorCallable    -- TypeError: np.linalg.solve applied to the callable drift
  | typeErrorNdarrayCall -- TypeError: 'numpy.ndarray' object is not callable
  deriving DecidableEq

/-- Embedding of `np.matmul`, including its shape check. -/
def npMatmul (A B : Mat) : Except Err Mat :=
  if A.cols = B.rows then .ok (A.mulRaw B) else .error .valueErrorShapes

/-- Elementwise subtraction `A - B`; numpy broadcasting beyond equal shapes is
not modelled (every subtraction in the embedded code is between equal shapes). -/
def npSub (A B : Mat) : Except Err Mat :=
  if A.rows = B.rows ∧ A.cols = B.cols then
    .ok ⟨A.rows, A.cols, fun i j => A.entry i j - B.entry i j⟩
  else .error .valueErrorBroadcast

/-- Embedding of `np.eye(n)` / `np.identity(n)`. -/
def eyeMat (n : ℕ) : Mat :=
  ⟨n, n, fun i j => if i = j then 1 else 0⟩

/-- An (r, c) array of zeros. -/
def zerosMat (r c : ℕ) : Mat :=
  ⟨r, c, fun _ _ => 0⟩

/-- Embedding of `np.diag([a, b])`. -/
def diag2 (a b : ℂ) : Mat :=
  ⟨2, 2, fun i j => if i = 0 ∧ j = 0 then a else if i = 1 ∧ j = 1 then b else 0⟩

/-- Embedding of `np.kron(np.eye(N), [[0,1],[-1,0]])`: the symplectic form, written
entrywise (block `i/2 = j/2`, position inside the block `i%2, j%2`). -/
def omegaMat (N : ℕ) : Mat :=
  ⟨2 * N, 2 * N, fun i j =>
    if i / 2 = j / 2 then
      if i % 2 = 0 ∧ j % 2 = 1 then 1
      else if i % 2 = 1 ∧ j % 2 = 0 then -1
      else 0
    else 0⟩

/-- Rank of `np.squeeze(A)` for a 2-D array of shape (rows, cols): axes of
length 1 are removed, all other axes (including length-0 axes) remain. -/
def squeezeNdim (A : Mat) : ℕ :=
  (if A.rows = 1 then 0 else 1) + (if A.cols = 1 then 0 else 1)

/-- Embedding of `all(np.isreal(A))`: every entry has zero imaginary part. -/
def isRealMat (A : Mat) : Prop :=
  ∀ i < A.rows, ∀ j < A.cols, (A.entry i j).im = 0

/-- Embedding of `np.vstack` of two column blocks (used by `tensor_product`). -/
def vstack2 (A B : Mat) : Mat :=
  ⟨A.rows + B.rows, A.cols, fun i j =>
    if i < A.rows then A.entry i j else B.entry (i - A.rows) j⟩

/-- Embedding of `scipy.linalg.block_diag` of two blocks. -/
def blockDiag2 (A B : Mat) : Mat :=
  ⟨A.rows + B.rows, A.cols + B.cols, fun i j =>
    if i < A.rows ∧ j < A.cols then A.entry i j
    else if A.rows ≤ i ∧ A.cols ≤ j then B.entry (i - A.rows) (j - A.cols)
    else 0⟩

/-- Basic slice `A[r0:r1, c0:c1]` (in-bounds uses only). -/
def sliceBlock (A : Mat) (r0 r1 c0 c1 : ℕ) : Mat :=
  ⟨r1 - r0, c1 - c0, fun i j => A.entry (r0 + i) (c0 + j)⟩

/-- The `gaussian_state` class: mean quadrature vector `R` (a column), the
covariance matrix `V`, the mode count `N_modes` and the derived symplectic
form `Omega` (set by every constructor path, lines 82-83). -/
structure gaussian_state where
  R : Mat
  V : Mat
  N_modes : ℕ
  Omega : Mat

/-- The explicit-moments constructor path `gaussian_state(R0, V0)`
(source lines 61-83):
`R_is_real = all(np.isreal(R0))`, `R_is_vector = np.squeeze(R0).ndim == 1`,
`V_is_matrix = np.squeeze(V0).ndim == 2`, `V_is_square = V0.shape[0] == V0.shape[1]`,
`R_and_V_match = len(R0) == len(V0)`; a failed `assert` is `Err.assertCtor`.
On success: `R = np.vstack(R0)` (an (M, 1) column), `V = V0` unchanged,
`N_modes = int(len(R0)/2)` (floor division), `Omega = kron(eye(N_modes), ω₂)`.
No check that `len(R0)` is even, and no symmetry or realness check on `V0`. -/
def mkState (R0 V0 : Mat) : Except Err gaussian_state :=
  if isRealMat R0 ∧ squeezeNdim R0 = 1 ∧ squeezeNdim V0 = 2 ∧
      R0.rows = V0.rows ∧ V0.rows = V0.cols then
    .ok { R := ⟨R0.rows, 1, fun i _ => R0.entry i 0⟩
          V := V0
          N_modes := R0.rows / 2
          Omega := omegaMat (R0.rows / 2) }
  else .error .assertCtor

/-- The no-argument constructor path (vacuum, source lines 53-56):
`R = [[0],[0]]`, `V = I₂`, `N_modes = 1`. -/
def vacuumState : gaussian_state :=
  { R := zerosMat 2 1, V := eyeMat 2, N_modes := 1, Omega := omegaMat 1 }

/-- Embedding of `tensor_product` (source lines 137-157): stack the mean vectors, block
diagonalise the covariance matrices, then rebuild through the constructor. -/
def tensor_product (s : gaussian_state) (rho_list : List gaussian_state) : Except Err gaussian_state :=
  let R_final := rho_list.foldl (fun acc r => vstack2 acc r.R) s.R
  let V_final := rho_list.foldl (fun acc r => blockDiag2 acc r.V) s.V
  mkState R_final V_final

/-- Embedding of `partial_trace(indexes)` (source lines 159-192).
`N_A = int(len(self.R) - 2*len(indexes))` may be negative, hence the signed
check `assert N_A >= 0`.  `modes = arange(N_modes)` with the listed modes
removed (`np.isin`); the copy loop writes `R0[2i:2i+2] = R[2m:2m+2]` and the
corresponding 2×2 blocks of `V0`.  Each target entry is written at most once,
so the loop is rendered as an entry comprehension; the loop raises a numpy
broadcast `ValueError` when the writes overflow the allocated `N_A` buffer
(more surviving modes than `N_A/2`, which happens exactly when `indexes`
holds duplicated or non-existent modes) or a source slice is cut short. -/
def partial_trace (s : gaussian_state) (indexes : List ℕ) : Except Err gaussian_state :=
  if (s.R.rows : ℤ) - 2 * indexes.length ≥ 0 then
    let N_A : ℕ := s.R.rows - 2 * indexes.length
    let modes := (List.range s.N_modes).filter (fun m => m ∉ indexes)
    if 2 * modes.length ≤ N_A ∧
        ∀ m ∈ modes, 2 * m + 2 ≤ s.R.rows ∧ 2 * m + 2 ≤ s.V.rows ∧ 2 * m + 2 ≤ s.V.cols then
      mkState
        ⟨N_A, 1, fun i j =>
          if i < 2 * modes.length then s.R.entry (2 * modes.getD (i / 2) 0 + i % 2) j else 0⟩
        ⟨N_A, N_A, fun i j =>
          if i < 2 * modes.length ∧ j < 2 * modes.length then
            s.V.entry (2 * modes.getD (i / 2) 0 + i % 2) (2 * modes.getD (j / 2) 0 + j % 2)
          else 0⟩
    else .error .valueErrorBroadcast
  else .error .assertReduction

/-- Embedding of `only_modes(indexes)` (source lines 194-220): keep exactly the listed
modes, in order.  `assert N_A > 0 and N_A <= N_modes`; the copy loop reads
`R[2m:2m+2]` / the 2×2 blocks of `V`, raising a broadcast `ValueError` when a
listed mode's slice is out of range. -/
def only_modes (s : gaussian_state) (indexes : List ℕ) : Except Err gaussian_state :=
  let N_A := indexes.length
  if 0 < N_A ∧ N_A ≤ s.N_modes then
    if ∀ m ∈ indexes, 2 * m + 2 ≤ s.R.rows ∧ 2 * m + 2 ≤ s.V.rows ∧ 2 * m + 2 ≤ s.V.cols then
      mkState
        ⟨2 * N_A, 1, fun i j => s.R.entry (2 * indexes.getD (i / 2) 0 + i % 2) j⟩
        ⟨2 * N_A, 2 * N_A, fun i j =>
          s.V.entry (2 * indexes.getD (i / 2) 0 + i % 2) (2 * indexes.getD (j / 2) 0 + j % 2)⟩
    else .error .valueErrorBroadcast
  else .error .assertReduction

/-- The square matrix a (square) `Mat` denotes, for spectral computations. -/
def toSquare (A : Mat) : Matrix (Fin A.rows) (Fin A.rows) ℂ :=
  Matrix.of fun i j => A.entry i j

/-- The eigenvalues `np.linalg.eig` computes for a square array: the roots of
the characteristic polynomial, with multiplicity (their output order is
unspecified, so only the multiset is determined). -/
def eigMultiset (A : Mat) : Multiset ℂ :=
  (toSquare A).charpoly.roots

/-- Embedding of `np.argmin` over a list of reals: index of the first minimal element. -/
def argminIdx : List ℝ → ℕ
  | [] => 0
  | x :: xs =>
    let j := argminIdx xs
    if x ≤ xs.getD j 0 then 0 else j + 1

/-- The pairing loop of `symplectic_eigenvalues` (source lines 237-244):
`N_modes` times, record the first remaining magnitude, delete it, then delete
the remaining magnitude closest to it (`np.argmin(np.abs(lambda_0 - ...))`). -/
def sympPostProcess : List ℝ → ℕ → List ℝ
  | _, 0 => []
  | [], _ + 1 => []
  | x :: rest, n + 1 =>
    x :: sympPostProcess (rest.eraseIdx (argminIdx (rest.map fun y => |y - x|))) n

/-- Embedding of `symplectic_eigenvalues()` (source lines 224-245) as a relation between a
state and its output list: some eigenvalue enumeration `l` of
`H = 1j * (Omega @ V)` has `out` as the result of taking magnitudes and
running the pairing loop. -/
def SymplecticEigsOf (s : gaussian_state) (out : List ℝ) : Prop :=
  ∃ l : List ℂ, (l : Multiset ℂ) = eigMultiset (Mat.smul Complex.I (s.Omega.mulRaw s.V)) ∧
    out = sympPostProcess (l.map Complex.abs) s.N_modes

/-- Embedding of `purity()` (source lines 247-255): `1 / np.prod(symplectic_eigenvalues())`. -/
def PurityOf (s : gaussian_state) (p : ℝ) : Prop :=
  ∃ out : List ℝ, SymplecticEigsOf s out ∧ p = 1 / out.prod

/-- The arithmetic of `von_Neumann_Entropy` on the symplectic-eigenvalue list
(source lines 289-298): eigenvalues within `1e-15` of 1 are nudged up by
`1e-15`, then `g(ν) = ((ν+1)/2)·ln((ν+1)/2) − ((ν−1)/2)·ln((ν−1)/2)` is
summed. -/
def entropyList (nu : List ℝ) : ℝ :=
  ((nu.map fun v => if |v - 1| < 1e-15 then v + 1e-15 else v).map fun v =>
    ((v + 1) / 2) * Real.log ((v + 1) / 2) - ((v - 1) / 2) * Real.log ((v - 1) / 2)).sum

/-- Embedding of `von_Neumann_Entropy()` (source lines 281-299) as a relation. -/
def EntropyOf (s : gaussian_state) (E : ℝ) : Prop :=
  ∃ out : List ℝ, SymplecticEigsOf s out ∧ E = entropyList out

/-- Embedding of `displace(alpha, modes)` (source lines 485-506), list form: requires the
two lists to have equal length, then adds `2*[Re α, Im α]` to the targeted
rows of `R` (the covariance matrix is untouched; numpy broadcasts the (2,1)
increment over the columns of the slice). -/
def displaceL (s : gaussian_state) (alphas : List ℂ) (modes : List ℕ) : Except Err gaussian_state :=
  if alphas.length = modes.length then
    .ok { s with
      R := (alphas.zip modes).foldl (fun R p =>
        ⟨R.rows, R.cols, fun i j =>
          if 2 * p.2 ≤ i ∧ i < 2 * p.2 + 2 then
            R.entry i j + (if i = 2 * p.2 then 2 * (p.1.re : ℂ) else 2 * (p.1.im : ℂ))
          else R.entry i j⟩) s.R }
  else .error .assertLen

/-- Embedding of `displace(alpha)` with a scalar amplitude: wrapped to `[alpha]`, default
`modes=[0]`. -/
def displace (s : gaussian_state) (alpha : ℂ) : Except Err gaussian_state :=
  displaceL s [alpha] [0]

/-- The squeezing matrix of `squeeze` (source lines 525-529): the identity on
`2*N_modes` rows with `diag(e^{-r_i}, e^{+r_i})` written into the 2×2 block of
each targeted mode. -/
def squeezeMatrix (Nm : ℕ) (rs : List ℝ) (modes : List ℕ) : Mat :=
  (rs.zip modes).foldl (fun S p =>
    ⟨S.rows, S.cols, fun i j =>
      if (2 * p.2 ≤ i ∧ i < 2 * p.2 + 2) ∧ (2 * p.2 ≤ j ∧ j < 2 * p.2 + 2) then
        if i = j then
          (if i = 2 * p.2 then ((Real.exp (-p.1) : ℝ) : ℂ) else ((Real.exp p.1 : ℝ) : ℂ))
        else 0
      else S.entry i j⟩) (eyeMat (2 * Nm))

/-- Embedding of `squeeze(r, modes)` (source lines 508-532), list form: builds `S`, then
`R ← S @ R` and `V ← S @ V @ S` (the source right-multiplies by `S`, not `Sᵀ`,
line 532; `S` is diagonal so the two coincide). -/
def squeezeL (s : gaussian_state) (rs : List ℝ) (modes : List ℕ) : Except Err gaussian_state :=
  if rs.length = modes.length then
    let S := squeezeMatrix s.N_modes rs modes
    match npMatmul S s.R with
    | .error e => .error e
    | .ok R1 =>
      match npMatmul S s.V with
      | .error e => .error e
      | .ok SV =>
        match npMatmul SV S with
        | .error e => .error e
        | .ok V1 => .ok { s with R := R1, V := V1 }
  else .error .assertLen

/-- Embedding of `squeeze(r)` with a scalar parameter: wrapped to `[r]`, default `modes=[0]`. -/
def squeeze (s : gaussian_state) (r : ℝ) : Except Err gaussian_state :=
  squeezeL s [r] [0]

/-- Embedding of `measurement_homodyne(R_m)` (source lines 691-730), with the measurement
outcome given as a mean-quadrature array `R_m` (the `gaussian_state`-argument
form only swaps in `args[0].R`).
`idx_modes = range(int(N_modes - len(R_m)/2), N_modes)`: for `len(R_m) = L`
and a non-negative start this is the last `⌈L/2⌉` modes, i.e. the start index
is `N_modes - (L+1)/2` (Python's `int()` truncation of `N_modes - L/2`).
Then `rho_B = only_modes(idx_modes)`, `rho_A = partial_trace(idx_modes)`,
`V_AB = V[0:n, n:n+m]`, `MP_inverse = np.diag([1/rho_B.V[1,1], 0])` — a 2×2
matrix built from entry (1,1) of `rho_B.V` in 0-based indexing — and the
conditional update of `rho_A.R` and `rho_A.V`, each `np.matmul` checked for
shape compatibility. -/
def measurement_homodyne (s : gaussian_state) (R_m : Mat) : Except Err gaussian_state :=
  let idx_modes := (List.range s.N_modes).drop (s.N_modes - (R_m.rows + 1) / 2)
  match only_modes s idx_modes with
  | .error e => .error e
  | .ok rho_B =>
    match partial_trace s idx_modes with
    | .error e => .error e
    | .ok rho_A =>
      let n := 2 * rho_A.N_modes
      let m := 2 * rho_B.N_modes
      let V_AB := sliceBlock s.V 0 n n (n + m)
      let MP_inverse := diag2 (1 / rho_B.V.entry 1 1) 0
      match npSub rho_B.R R_m with
      | .error e => .error e
      | .ok dR =>
        match npMatmul MP_inverse dR with
        | .error e => .error e
        | .ok t1 =>
          match npMatmul V_AB t1 with
          | .error e => .error e
          | .ok t2 =>
            match npSub rho_A.R t2 with
            | .error e => .error e
            | .ok newR =>
              match npMatmul MP_inverse V_AB.transpose with
              | .error e => .error e
              | .ok t3 =>
                match npMatmul V_AB t3 with
                | .error e => .error e
                | .ok t4 =>
                  match npSub rho_A.V t4 with
                  | .error e => .error e
                  | .ok newV => .ok { rho_A with R := newR, V := newV }

/-- The drift specification `A_0` of `gaussian_dynamics`: either a constant
matrix or a function of time (`is_a_function`, source lines 760-764, decides
which by callability). -/
inductive Drift where
  | const : Mat → Drift
  | fn : (ℝ → Mat) → Drift

/-- The `gaussian_dynamics` class state set in `__init__` (source lines
807-840): drift `A`, diffusion `D`, noise means `N`, initial state. -/
structure gaussian_dynamics where
  A : Drift
  D : Mat
  N : Mat
  initial_state : gaussian_state

/-- Embedding of `self.Size_matrices = len(self.D)` (source line 833). -/
def gaussian_dynamics.Size_matrices (sys : gaussian_dynamics) : ℕ :=
  sys.D.rows

/-- The stability flag computed in `__init__` for a constant drift matrix
(source lines 837-840): `is_not_stable = np.any(eigvalue.real > 0)`;
`is_stable = not is_not_stable`.  Note the strict inequality: eigenvalues
with zero real part count as stable. -/
def is_stable (A : Mat) : Prop :=
  ¬ ∃ lam ∈ eigMultiset A, 0 < lam.re

/-- The linear-system predicate behind `np.linalg.solve(A, b)`:
`x` has the right shape and `A @ x` agrees with `b` entrywise. -/
def MulEqB (A x b : Mat) : Prop :=
  x.rows = A.cols ∧ x.cols = b.cols ∧
    ∀ i < A.rows, ∀ j < b.cols, (A.mulRaw x).entry i j = b.entry i j

/-- Embedding of `np.linalg.solve(A, b)`, modelled by its contract: `A` must be square and
non-singular (else `LinAlgError`), and the returned array solves `A @ x = b`. -/
def npSolve (A b : Mat) : Except Err Mat :=
  if h : A.rows = A.cols ∧ (toSquare A).det ≠ 0 ∧ ∃ x : Mat, MulEqB A x b then
    .ok h.2.2.choose
  else .error .linAlgError

/-- The continuous-Lyapunov predicate behind
`scipy.linalg.solve_continuous_lyapunov(a, q)`: `a @ x + x @ aᵀ = q`. -/
def LyapEqB (a x q : Mat) : Prop :=
  x.rows = a.rows ∧ x.cols = a.rows ∧
    ∀ i < a.rows, ∀ j < a.rows,
      (a.mulRaw x).entry i j + (x.mulRaw a.transpose).entry i j = q.entry i j

/-- Embedding of `scipy.linalg.solve_continuous_lyapunov(a, q)`, modelled by its contract:
it returns a solution of `a @ x + x @ aᵀ = q` whenever one exists (the
Bartels-Stewart routine does not validate solvability, so no error path is
modelled; an unsolvable call yields an unspecified array). -/
def solve_continuous_lyapunov (a q : Mat) : Mat :=
  if h : ∃ x : Mat, LyapEqB a x q then h.choose else zerosMat a.rows a.rows

/-- Embedding of `np.block` of the 3×3 grid of M×M blocks building the Floquet drift
matrix `A_F` (source lines 1005-1007), written entrywise by block row/column. -/
def floquetBlock (M : ℕ) (A_0 A_c A_s : Mat) (omega : ℝ) : Mat :=
  ⟨3 * M, 3 * M, fun i j =>
    let bi := i / M
    let bj := j / M
    let r := i % M
    let c := j % M
    if bi = 0 then (if bj = 0 then A_0.entry r c else if bj = 1 then A_c.entry r c else A_s.entry r c)
    else if bi = 1 then
      (if bj = 0 then A_c.entry r c else if bj = 1 then A_0.entry r c
       else -(omega : ℂ) * (if r = c then 1 else 0))
    else
      (if bj = 0 then A_s.entry r c else if bj = 1 then (omega : ℂ) * (if r = c then 1 else 0)
       else A_0.entry r c)⟩

/-- Embedding of `np.kron(np.eye(3), D)` (source line 1009). -/
def kron3 (M : ℕ) (D : Mat) : Mat :=
  ⟨3 * M, 3 * M, fun i j => if i / M = j / M then D.entry (i % M) (j % M) else 0⟩

/-- Embedding of `np.vstack([N, N, N])` (source line 1011). -/
def vstack3 (M : ℕ) (N : Mat) : Mat :=
  ⟨3 * M, 1, fun i j => N.entry (i % M) j⟩

/-- Embedding of `floquet(A_0, A_c, A_s, omega)` (source lines 984-1021): build the
augmented drift/diffusion/noise, solve the linear system and the continuous
Lyapunov equation in the augmented space, then keep the leading M×M block of
the result and rebuild a `gaussian_state` through the constructor. -/
def floquet (sys : gaussian_dynamics) (A_0 A_c A_s : Mat) (omega : ℝ) : Except Err gaussian_state :=
  let M := sys.Size_matrices
  let A_F := floquetBlock M A_0 A_c A_s omega
  let D_F := kron3 M sys.D
  let N_F := vstack3 M sys.N
  match npSolve A_F N_F.neg with
  | .error e => .error e
  | .ok R_ss_F =>
    let V_ss_F := solve_continuous_lyapunov A_F D_F.neg
    let R_ss := sliceBlock R_ss_F 0 M 0 R_ss_F.cols
    let V_ss := sliceBlock V_ss_F 0 M 0 M
    mkState R_ss V_ss

/-- Embedding of `steady_state(A_0, A_c, A_s, omega)` (source lines 954-982).
When the drift is a function, the `if` branch (lines 970-972) computes the
Floquet steady state, but control then falls through to line 976,
`R_ss = np.linalg.solve(self.A, -self.N)`, with the callable `self.A` — which
raises a `TypeError` (an error from `floquet` itself propagates first).
When the drift is constant, `assert self.is_stable` (line 974), then the
linear solve and `solve_continuous_lyapunov(A, -D)` followed by the
`gaussian_state` constructor. -/
def steady_state (sys : gaussian_dynamics) (A_0 A_c A_s : Mat) (omega : ℝ) :
    Except Err gaussian_state :=
  match sys.A with
  | Drift.fn _ =>
    match floquet sys A_0 A_c A_s omega with
    | .error e => .error e
    | .ok _ss => .error .typeErrorCallable
  | Drift.const A =>
    if is_stable A then
      match npSolve A sys.N.neg with
      | .error e => .error e
      | .ok R_ss => mkState R_ss (solve_continuous_lyapunov A sys.D.neg)
    else .error .assertStable

/-- Embedding of `langevin_semi_classical(t_span, N_ensemble)` (source lines 1023-1069).
After storing `self.t = t_span` and `self.N_time = len(t_span)`, line 1043
evaluates `dt = self.t(2) - self.t(1)`, applying call syntax to the numpy
array `self.t`.  A numpy array is not callable, so this raises `TypeError`
unconditionally, before any sampling or integration; the Euler-Maruyama loop
(lines 1058-1069, itself indexing one past the allocated bound) is
unreachable. -/
def langevin_semi_classical (sys : gaussian_dynamics) (t_span : List ℝ) (N_ensemble : ℕ) :
    Except Err Mat :=
  let _N_time := t_span.length
  let _size := sys.Size_matrices
  let _ := N_ensemble
  .error .typeErrorNdarrayCall

/-- A square array with constant diagonal `c` and zeros elsewhere. -/
def diagConstMat (n : ℕ) (c : ℂ) : Mat :=
  ⟨n, n, fun i j => if i = j then c else 0⟩

/-- The constant drift matrix `[[0, 1], [-1, 0]]` (purely imaginary spectrum). -/
def rotDriftMat : Mat :=
  ⟨2, 2, fun i j => if i = 0 ∧ j = 1 then 1 else if i = 1 ∧ j = 0 then -1 else 0⟩

/-- The exact value `von_Neumann_Entropy` produces on the symplectic
eigenvalue list `[1]`: the `ν ≈ 1` guard replaces `ν = 1` by `1 + 1e-15`
before `g` is evaluated. -/
def vacEntropyVal : ℝ :=
  ((1 + 1e-15 + 1) / 2) * Real.log ((1 + 1e-15 + 1) / 2) -
    ((1 + 1e-15 - 1) / 2) * Real.log ((1 + 1e-15 - 1) / 2)

/-- The diagonal of the single-parameter squeezing matrix (`diag(e^{-r}, e^{r})`
on mode 0, identity elsewhere). -/
def sqd (r : ℝ) (i : ℕ) : ℂ :=
  if i = 0 then ((Real.exp (-r) : ℝ) : ℂ) else if i = 1 then ((Real.exp r : ℝ) : ℂ) else 1

/-- The two-mode vacuum `vacuum ⊗ vacuum` (the `tensor_product` call cannot
fail here; the fallback branch is never taken). -/
def twoVacua : gaussian_state :=
  match tensor_product vacuumState [vacuumState] with
  | .ok st => st
  | .error _ => vacuumState

/-- The drift matrix `A = diag(-1, -1, -1, -1)` of the steady-state scenario. -/
def negI4 : Mat :=
  diagConstMat 4 (-1)

/-- The two-mode scenario system: `A = -I₄`, `D = I₄`, `N_noise = 0`,
initial state two vacua. -/
def sysC6 : gaussian_dynamics :=
  { A := Drift.const negI4, D := eyeMat 4, N := zerosMat 4 1, initial_state := twoVacua }

/-- A system with a time-varying (callable) drift. -/
def sysTimeVarying : gaussian_dynamics :=
  { A := Drift.fn fun _ => eyeMat 2, D := eyeMat 2, N := zerosMat 2 1,
    initial_state := vacuumState }

/-- A system whose constant drift `I₂` has a strictly positive eigenvalue. -/
def sysUnstable : gaussian_dynamics :=
  { A := Drift.const (diagConstMat 2 1), D := eyeMat 2, N := zerosMat 2 1,
    initial_state := vacuumState }

/-- A two-mode covariance matrix with `V_A = 2·I₂`, `V_B = diag(1, 4)` and
cross block `V_AB = I₂`: the position and momentum variances of the measured
mode differ, separating the two readings of `V[1,1]`. -/
def vC2 : Mat :=
  ⟨4, 4, fun i j =>
    if i = j then (if i = 3 then 4 else if 2 ≤ i then 1 else 2)
    else if (i = 0 ∧ j = 2) ∨ (i = 2 ∧ j = 0) ∨ (i = 1 ∧ j = 3) ∨ (i = 3 ∧ j = 1) then 1
    else 0⟩

/-- The two-mode state with zero means and covariance `vC2`. -/
def sC2 : gaussian_state :=
  { R := zerosMat 4 1, V := vC2, N_modes := 2, Omega := omegaMat 2 }

/-- A three-mode state (zero means, identity covariance). -/
def sC4 : gaussian_state :=
  { R := zerosMat 6 1, V := eyeMat 6, N_modes := 3, Omega := omegaMat 3 }

/-- An asymmetric, complex-valued 3×3 "covariance" matrix: the constructor
accepts it (no symmetry or realness check on `V0`). -/
def vOdd : Mat :=
  ⟨3, 3, fun i j => if i = 0 ∧ j = 1 then Complex.I else if i = 0 ∧ j = 2 then 2 else 0⟩

/-- Predicate `A·R_ss + N_noise = 0`, entrywise. -/
def SteadyLinear (A R N : Mat) : Prop :=
  ∀ i < A.rows, (A.mulRaw R).entry i 0 + N.entry i 0 = 0

/-- Predicate `A·V_ss + V_ss·Aᵗ + D = 0`, entrywise. -/
def SteadyLyapunov (A V D : Mat) : Prop :=
  ∀ i < A.rows, ∀ j < A.rows,
    (A.mulRaw V).entry i j + (V.mulRaw A.transpose).entry i j + D.entry i j = 0

/-! ### Helper lemmas -/

theorem mkState_ok (R0 V0 : Mat)
    (h : isRealMat R0 ∧ squeezeNdim R0 = 1 ∧ squeezeNdim V0 = 2 ∧
      R0.rows = V0.rows ∧ V0.rows = V0.cols) :
    mkState R0 V0 = .ok
      { R := ⟨R0.rows, 1, fun i _ => R0.entry i 0⟩
        V := V0
        N_modes := R0.rows / 2
        Omega := omegaMat (R0.rows / 2) } := by
  unfold mkState
  rw [if_pos h]

theorem sum_ite_diag_left {n i : ℕ} (hi : i < n) (c : ℂ) (g : ℕ → ℂ) :
    (∑ k ∈ Finset.range n, (if i = k then c else 0) * g k) = c * g i := by
  rw [Finset.sum_eq_single_of_mem i (Finset.mem_range.mpr hi)]
  · simp
  · intro b _ hb
    rw [if_neg (Ne.symm hb), zero_mul]

theorem sum_ite_diag_right {n j : ℕ} (hj : j < n) (c : ℂ) (g : ℕ → ℂ) :
    (∑ k ∈ Finset.range n, g k * (if k = j then c else 0)) = g j * c := by
  rw [Finset.sum_eq_single_of_mem j (Finset.mem_range.mpr hj)]
  · simp
  · intro b _ hb
    rw [if_neg hb, mul_zero]

/-- Left multiplication by a matrix whose entry function is diagonal-like
collapses entrywise (within the summation range). -/
theorem mulRaw_diagLike_left {n : ℕ} {d : ℕ → ℂ} {S B : Mat}
    (hcols : S.cols = n) (hent : ∀ i j, S.entry i j = if i = j then d i else 0)
    {i j : ℕ} (hi : i < n) :
    (S.mulRaw B).entry i j = d i * B.entry i j := by
  show (∑ k ∈ Finset.range S.cols, S.entry i k * B.entry k j) = _
  rw [hcols]
  calc (∑ k ∈ Finset.range n, S.entry i k * B.entry k j)
      = ∑ k ∈ Finset.range n, (if i = k then d i else 0) * B.entry k j := by
        refine Finset.sum_congr rfl fun k _ => ?_
        rw [hent i k]
    _ = d i * B.entry i j := sum_ite_diag_left hi _ _

/-- Right multiplication by a diagonal-like matrix collapses entrywise. -/
theorem mulRaw_diagLike_right {n : ℕ} {d : ℕ → ℂ} {B S : Mat}
    (hcols : B.cols = n) (hent : ∀ i j, S.entry i j = if i = j then d i else 0)
    {i j : ℕ} (hj : j < n) :
    (B.mulRaw S).entry i j = B.entry i j * d j := by
  show (∑ k ∈ Finset.range B.cols, B.entry i k * S.entry k j) = _
  rw [hcols]
  calc (∑ k ∈ Finset.range n, B.entry i k * S.entry k j)
      = ∑ k ∈ Finset.range n, B.entry i k * (if k = j then d j else 0) := by
        refine Finset.sum_congr rfl fun k _ => ?_
        rw [hent k j]
        by_cases h : k = j
        · subst h; simp
        · simp [h]
    _ = B.entry i j * d j := sum_ite_diag_right hj _ _

theorem range_filter_not_mem_last (n : ℕ) :
    (List.range (n + 1)).filter (fun m => m ∉ ([n] : List ℕ)) = List.range n := by
  rw [List.range_succ, List.filter_append]
  have h1 : (List.range n).filter (fun m => m ∉ ([n] : List ℕ)) = List.range n := by
    refine List.filter_eq_self.mpr fun a ha => ?_
    have : a < n := List.mem_range.mp ha
    simp [Nat.ne_of_lt this]
  have h2 : ([n] : List ℕ).filter (fun m => m ∉ ([n] : List ℕ)) = [] := by
    simp
  rw [h1, h2, List.append_nil]

theorem range_drop_last (n : ℕ) : (List.range (n + 1)).drop n = [n] := by
  rw [List.range_succ, List.drop_append_of_le_length (by simp)]
  simp

theorem getD_range {n k : ℕ} (hk : k < n) : (List.range n).getD k 0 = k := by
  rw [List.getD_eq_getElem _ _ (by simpa using hk)]
  simp

theorem toSquare_diagConst (n : ℕ) (c : ℂ) :
    toSquare (diagConstMat n c) = Matrix.diagonal (fun _ : Fin n => c) := by
  ext i j
  by_cases h : i = j
  · subst h
    simp [toSquare, diagConstMat]
  · have hv : (i : ℕ) ≠ (j : ℕ) := fun hv => h (Fin.val_injective hv)
    simp [toSquare, diagConstMat, Matrix.diagonal_apply_ne _ h, hv]

theorem charpoly_diagonal_const (n : ℕ) (c : ℂ) :
    (Matrix.diagonal (fun _ : Fin n => c)).charpoly = (X - C c) ^ n := by
  have hcm : Matrix.charmatrix (Matrix.diagonal (fun _ : Fin n => c)) =
      Matrix.diagonal (fun _ : Fin n => (X : ℂ[X]) - C c) := by
    ext i j
    by_cases h : i = j
    · subst h
      simp
    · simp [Matrix.charmatrix_apply_ne _ _ _ h, Matrix.diagonal_apply_ne _ h]
  rw [show (Matrix.diagonal fun _ : Fin n => c).charpoly =
      (Matrix.charmatrix (Matrix.diagonal fun _ : Fin n => c)).det from rfl, hcm,
    Matrix.det_diagonal]
  simp [Finset.prod_const, Finset.card_univ]

theorem eigMultiset_diagConst (n : ℕ) (c : ℂ) :
    eigMultiset (diagConstMat n c) = n • ({c} : Multiset ℂ) := by
  unfold eigMultiset
  rw [show toSquare (diagConstMat n c) = Matrix.diagonal (fun _ : Fin n => c) from
    toSquare_diagConst n c]
  rw [charpoly_diagonal_const, Polynomial.roots_pow, Polynomial.roots_X_sub_C]

theorem mem_eigMultiset_diagConst {n : ℕ} (hn : 0 < n) (c lam : ℂ) :
    lam ∈ eigMultiset (diagConstMat n c) ↔ lam = c := by
  rw [eigMultiset_diagConst, Multiset.mem_nsmul]
  simp [hn.ne']

theorem charpoly_two (M : Matrix (Fin 2) (Fin 2) ℂ) :
    M.charpoly = X ^ 2 - C (M 0 0 + M 1 1) * X + C (M 0 0 * M 1 1 - M 0 1 * M 1 0) := by
  rw [show M.charpoly = (Matrix.charmatrix M).det from rfl, Matrix.det_fin_two,
    Matrix.charmatrix_apply_eq, Matrix.charmatrix_apply_eq,
    Matrix.charmatrix_apply_ne _ _ _ (by decide), Matrix.charmatrix_apply_ne _ _ _ (by decide)]
  simp only [map_add, map_sub, map_mul]
  ring

theorem toSquare_rotDriftMat : toSquare rotDriftMat = !![0, 1; -1, 0] := by
  ext i j
  fin_cases i <;> fin_cases j <;> simp [toSquare, rotDriftMat]

theorem eigMultiset_rotDriftMat :
    eigMultiset rotDriftMat = {Complex.I, -Complex.I} := by
  unfold eigMultiset
  rw [show toSquare rotDriftMat = !![0, 1; -1, 0] from toSquare_rotDriftMat, charpoly_two]
  have h2 : ((C Complex.I : ℂ[X])) ^ 2 = -1 := by
    rw [sq, ← map_mul, Complex.I_mul_I, map_neg, map_one]
  have hfac : (X : ℂ[X]) ^ 2 - C ((!![0, 1; -1, 0] : Matrix (Fin 2) (Fin 2) ℂ) 0 0 +
        !![0, 1; -1, 0] 1 1) * X +
      C (!![0, 1; -1, 0] 0 0 * !![0, 1; -1, 0] 1 1 -
        !![0, 1; -1, 0] 0 1 * !![0, 1; -1, 0] 1 0) =
      (X - C Complex.I) * (X - C (-Complex.I)) := by
    have e0 : ((!![0, 1; -1, 0] : Matrix (Fin 2) (Fin 2) ℂ) 0 0 + !![0, 1; -1, 0] 1 1) = 0 := by
      norm_num
    have e1 : ((!![0, 1; -1, 0] : Matrix (Fin 2) (Fin 2) ℂ) 0 0 * !![0, 1; -1, 0] 1 1 -
        !![0, 1; -1, 0] 0 1 * !![0, 1; -1, 0] 1 0) = 1 := by
      norm_num
    rw [e0, e1, map_zero, map_one, map_neg]
    ring_nf
    rw [h2]
    ring
  rw [hfac, Polynomial.roots_mul (mul_ne_zero (Polynomial.X_sub_C_ne_zero _)
    (Polynomial.X_sub_C_ne_zero _)), Polynomial.roots_X_sub_C, Polynomial.roots_X_sub_C]
  rfl

theorem toSquare_vacH :
    toSquare (Mat.smul Complex.I ((omegaMat 1).mulRaw (eyeMat 2))) =
      !![0, Complex.I; -Complex.I, 0] := by
  ext i j
  fin_cases i <;> fin_cases j <;>
    simp [toSquare, Mat.smul, Mat.mulRaw, omegaMat, eyeMat, Finset.sum_range_succ]

theorem eigMultiset_vacH :
    eigMultiset (Mat.smul Complex.I ((omegaMat 1).mulRaw (eyeMat 2))) =
      ({1, -1} : Multiset ℂ) := by
  unfold eigMultiset
  rw [show toSquare (Mat.smul Complex.I ((omegaMat 1).mulRaw (eyeMat 2))) =
      !![0, Complex.I; -Complex.I, 0] from toSquare_vacH, charpoly_two]
  have hfac : (X : ℂ[X]) ^ 2 - C ((!![0, Complex.I; -Complex.I, 0] :
        Matrix (Fin 2) (Fin 2) ℂ) 0 0 + !![0, Complex.I; -Complex.I, 0] 1 1) * X +
      C (!![0, Complex.I; -Complex.I, 0] 0 0 * !![0, Complex.I; -Complex.I, 0] 1 1 -
        !![0, Complex.I; -Complex.I, 0] 0 1 * !![0, Complex.I; -Complex.I, 0] 1 0) =
      (X - C 1) * (X - C (-1)) := by
    have e0 : ((!![0, Complex.I; -Complex.I, 0] : Matrix (Fin 2) (Fin 2) ℂ) 0 0 +
        !![0, Complex.I; -Complex.I, 0] 1 1) = 0 := by
      norm_num
    have e1 : ((!![0, Complex.I; -Complex.I, 0] : Matrix (Fin 2) (Fin 2) ℂ) 0 0 *
        !![0, Complex.I; -Complex.I, 0] 1 1 -
        !![0, Complex.I; -Complex.I, 0] 0 1 * !![0, Complex.I; -Complex.I, 0] 1 0) = -1 := by
      norm_num
    rw [e0, e1]
    simp only [map_zero, map_neg, map_one]
    ring
  rw [hfac, Polynomial.roots_mul (mul_ne_zero (Polynomial.X_sub_C_ne_zero _)
    (Polynomial.X_sub_C_ne_zero _)), Polynomial.roots_X_sub_C, Polynomial.roots_X_sub_C]
  rfl

/-- Any eigenvalue enumeration of the vacuum `1j*(Omega @ V)` has magnitude
list a permutation of `[1, 1]`, hence exactly `[1, 1]`. -/
theorem vacuum_absEigs {l : List ℂ}
    (hl : (l : Multiset ℂ) = eigMultiset (Mat.smul Complex.I ((omegaMat 1).mulRaw (eyeMat 2)))) :
    l.map Complex.abs = [1, 1] := by
  have hperm : l.Perm [(1 : ℂ), -1] := by
    refine Multiset.coe_eq_coe.mp ?_
    rw [hl, eigMultiset_vacH]
    rfl
  have habs : (l.map Complex.abs).Perm [1, 1] := by
    simpa using hperm.map Complex.abs
  have : l.map Complex.abs = List.replicate 2 1 := by
    rw [List.eq_replicate_iff]
    refine ⟨by simpa using habs.length_eq, fun x hx => ?_⟩
    have := habs.mem_iff.mp hx
    simpa using this
  simpa using this

theorem symplecticEigsOf_vacuum {out : List ℝ} (h : SymplecticEigsOf vacuumState out) :
    out = [1] := by
  obtain ⟨l, hl, hout⟩ := h
  have habs : l.map Complex.abs = [1, 1] := vacuum_absEigs (by exact hl)
  rw [hout, habs]
  simp [sympPostProcess, vacuumState]

theorem symplecticEigsOf_vacuum_exists : SymplecticEigsOf vacuumState [1] := by
  refine ⟨[1, -1], ?_, ?_⟩
  · show (([(1 : ℂ), -1] : List ℂ) : Multiset ℂ) =
      eigMultiset (Mat.smul Complex.I ((omegaMat 1).mulRaw (eyeMat 2)))
    rw [eigMultiset_vacH]
    rfl
  · rw [show ([(1 : ℂ), -1].map Complex.abs) = [1, 1] from by simp]
    simp [sympPostProcess, vacuumState]

theorem entropyList_one : entropyList [1] = vacEntropyVal := by
  unfold entropyList vacEntropyVal
  norm_num

theorem vacEntropyVal_pos : 0 < vacEntropyVal := by
  unfold vacEntropyVal
  have ha : (1 : ℝ) < (1 + 1e-15 + 1) / 2 := by norm_num
  have hb0 : (0 : ℝ) < (1 + 1e-15 - 1) / 2 := by norm_num
  have hb1 : ((1 : ℝ) + 1e-15 - 1) / 2 < 1 := by norm_num
  have h1 : 0 < ((1 + 1e-15 + 1) / 2) * Real.log ((1 + 1e-15 + 1) / 2) :=
    mul_pos (by norm_num) (Real.log_pos ha)
  have h2 : ((1 + 1e-15 - 1) / 2) * Real.log ((1 + 1e-15 - 1) / 2) < 0 :=
    mul_neg_of_pos_of_neg hb0 (Real.log_neg hb0 hb1)
  linarith

theorem entropyOf_vacuum {E : ℝ} (h : EntropyOf vacuumState E) : E = vacEntropyVal := by
  obtain ⟨out, hout, hE⟩ := h
  rw [hE, symplecticEigsOf_vacuum hout, entropyList_one]

theorem entropyOf_vacuum_exists : EntropyOf vacuumState vacEntropyVal :=
  ⟨[1], symplecticEigsOf_vacuum_exists, entropyList_one.symm⟩

theorem purityOf_vacuum {p : ℝ} (h : PurityOf vacuumState p) : p = 1 := by
  obtain ⟨out, hout, hp⟩ := h
  rw [hp, symplecticEigsOf_vacuum hout]
  simp

/-- Behaviour of `only_modes` on the trailing mode of a well-formed `(n+1)`-mode state:
it succeeds, and the resulting single-mode state reads the trailing 2×2
blocks of `R` and `V`. -/
theorem only_modes_last (s : gaussian_state) (n : ℕ)
    (hN : s.N_modes = n + 1) (hRr : s.R.rows = 2 * (n + 1))
    (hVr : s.V.rows = 2 * (n + 1)) (hVc : s.V.cols = 2 * (n + 1))
    (hReal : ∀ i < 2 * (n + 1), (s.R.entry i 0).im = 0) :
    ∃ B, only_modes s [n] = .ok B ∧
      B.N_modes = 1 ∧ B.R.rows = 2 ∧ B.R.cols = 1 ∧ B.V.rows = 2 ∧ B.V.cols = 2 ∧
      (∀ k, B.R.entry k 0 = s.R.entry (2 * ([n].getD (k / 2) 0) + k % 2) 0) ∧
      (∀ k l, B.V.entry k l =
        s.V.entry (2 * ([n].getD (k / 2) 0) + k % 2) (2 * ([n].getD (l / 2) 0) + l % 2)) := by
  unfold only_modes
  rw [if_pos (by simp [hN]), if_pos (by
    intro m hm
    simp only [List.mem_singleton] at hm
    subst hm
    refine ⟨by omega, by omega, by omega⟩)]
  rw [mkState_ok _ _ ?_]
  · refine ⟨_, rfl, ?_, ?_, rfl, ?_, ?_, ?_, ?_⟩
    · simp
    · simp
    · simp
    · simp
    · intro k
      rfl
    · intro k l
      rfl
  · refine ⟨?_, ?_, ?_, ?_, ?_⟩
    · intro i hi j hj
      have hi2 : i < 2 := by simpa using hi
      have hj1 : j < 1 := by simpa using hj
      have hj0 : j = 0 := by omega
      subst hj0
      show (s.R.entry (2 * [n].getD (i / 2) 0 + i % 2) 0).im = 0
      have hget : ([n].getD (i / 2) 0) = n := by
        rw [show i / 2 = 0 from by omega]
        rfl
      rw [hget]
      exact hReal _ (by omega)
    · simp [squeezeNdim]
    · simp [squeezeNdim]
    · simp
    · simp

/-- Behaviour of `partial_trace` of the trailing mode of a well-formed `(n+1)`-mode state:
it succeeds and the remaining `n`-mode state is the leading block of `R`, `V`. -/
theorem partial_trace_last (s : gaussian_state) (n : ℕ)
    (hN : s.N_modes = n + 1) (hRr : s.R.rows = 2 * (n + 1))
    (hVr : s.V.rows = 2 * (n + 1)) (hVc : s.V.cols = 2 * (n + 1))
    (hReal : ∀ i < 2 * (n + 1), (s.R.entry i 0).im = 0) :
    ∃ A, partial_trace s [n] = .ok A ∧
      A.N_modes = n ∧ A.R.rows = 2 * n ∧ A.R.cols = 1 ∧ A.V.rows = 2 * n ∧ A.V.cols = 2 * n ∧
      (∀ i < 2 * n, A.R.entry i 0 = s.R.entry i 0) ∧
      (∀ i < 2 * n, ∀ j < 2 * n, A.V.entry i j = s.V.entry i j) := by
  have hfilter : (List.range s.N_modes).filter (fun m => m ∉ ([n] : List ℕ)) = List.range n := by
    rw [hN]
    exact range_filter_not_mem_last n
  have hNA : s.R.rows - 2 * ([n] : List ℕ).length = 2 * n := by
    simp only [List.length_singleton, hRr]
    omega
  have hgd : ∀ i < 2 * n, (List.range n).getD (i / 2) 0 = i / 2 := by
    intro i hi
    exact getD_range (by omega)
  have hidxval : ∀ i < 2 * n, 2 * ((List.range n).getD (i / 2) 0) + i % 2 = i := by
    intro i hi
    rw [hgd i hi]
    omega
  unfold partial_trace
  rw [if_pos (by
    simp only [List.length_singleton]
    push_cast
    omega)]
  rw [hfilter]
  rw [if_pos (by
    constructor
    · rw [List.length_range, hNA]
    · intro m hm
      have : m < n := List.mem_range.mp hm
      refine ⟨by omega, by omega, by omega⟩)]
  rw [mkState_ok _ _ ?_]
  · refine ⟨_, rfl, ?_, ?_, rfl, ?_, ?_, ?_, ?_⟩
    · show (s.R.rows - 2 * ([n] : List ℕ).length) / 2 = n
      rw [hNA]
      omega
    · exact hNA
    · exact hNA
    · exact hNA
    · intro i hi
      show (if i < 2 * (List.range n).length then
        s.R.entry (2 * ((List.range n).getD (i / 2) 0) + i % 2) 0 else 0) = s.R.entry i 0
      rw [if_pos (by simpa using hi), hidxval i hi]
    · intro i hi j hj
      show (if i < 2 * (List.range n).length ∧ j < 2 * (List.range n).length then
        s.V.entry (2 * ((List.range n).getD (i / 2) 0) + i % 2)
          (2 * ((List.range n).getD (j / 2) 0) + j % 2) else 0) = s.V.entry i j
      rw [if_pos (by constructor <;> simpa using by omega), hidxval i hi, hidxval j hj]
  · refine ⟨?_, ?_, ?_, ?_, ?_⟩
    · intro i hi j hj
      have hi2 : i < 2 * n := by
        have : i < s.R.rows - 2 * ([n] : List ℕ).length := by simpa using hi
        omega
      have hj1 : j < 1 := by simpa using hj
      have hj0 : j = 0 := by omega
      subst hj0
      show ((if i < 2 * (List.range n).length then
        s.R.entry (2 * ((List.range n).getD (i / 2) 0) + i % 2) 0 else 0)).im = 0
      rw [if_pos (by simpa using hi2), hidxval i hi2]
      exact hReal _ (by omega)
    · show (if s.R.rows - 2 * ([n] : List ℕ).length = 1 then 0 else 1) + (if 1 = 1 then 0 else 1) = 1
      rw [hNA, if_neg (by omega), if_pos rfl]
    · show (if s.R.rows - 2 * ([n] : List ℕ).length = 1 then 0 else 1) +
        (if s.R.rows - 2 * ([n] : List ℕ).length = 1 then 0 else 1) = 2
      rw [hNA, if_neg (by omega)]
    · rfl
    · rfl

theorem npMatmul_ok {A B : Mat} (h : A.cols = B.rows) : npMatmul A B = .ok (A.mulRaw B) := by
  unfold npMatmul
  rw [if_pos h]

theorem npSub_ok {A B : Mat} (hr : A.rows = B.rows) (hc : A.cols = B.cols) :
    npSub A B = .ok ⟨A.rows, A.cols, fun i j => A.entry i j - B.entry i j⟩ := by
  unfold npSub
  rw [if_pos ⟨hr, hc⟩]

theorem diag2_diagLike (a b : ℂ) :
    ∀ i j, (diag2 a b).entry i j =
      if i = j then (if i = 0 then a else if i = 1 then b else 0) else 0 := by
  intro i j
  show (if i = 0 ∧ j = 0 then a else if i = 1 ∧ j = 1 then b else 0) = _
  split_ifs <;> first | rfl | omega

/-- Behaviour of `measurement_homodyne` on a well-formed `(n+1)`-mode state with a single
measured mode (`R_m` of shape (2,1)): it succeeds, and the conditional state
is the leading `n`-mode block updated through the rank-one pseudo-inverse
built from `V[2n+1, 2n+1]` — the momentum variance of the measured mode. -/
theorem homodyne_m1 (s : gaussian_state) (n : ℕ) (R_m : Mat)
    (hN : s.N_modes = n + 1) (hRr : s.R.rows = 2 * (n + 1)) (hRc : s.R.cols = 1)
    (hVr : s.V.rows = 2 * (n + 1)) (hVc : s.V.cols = 2 * (n + 1))
    (hReal : ∀ i < 2 * (n + 1), (s.R.entry i 0).im = 0)
    (hmr : R_m.rows = 2) (hmc : R_m.cols = 1) :
    ∃ t, measurement_homodyne s R_m = .ok t ∧
      t.N_modes = n ∧ t.R.rows = 2 * n ∧ t.R.cols = 1 ∧ t.V.rows = 2 * n ∧ t.V.cols = 2 * n ∧
      (∀ i < 2 * n, t.R.entry i 0 =
        s.R.entry i 0 - s.V.entry i (2 * n) *
          ((1 / s.V.entry (2 * n + 1) (2 * n + 1)) * (s.R.entry (2 * n) 0 - R_m.entry 0 0))) ∧
      (∀ i < 2 * n, ∀ j < 2 * n, t.V.entry i j =
        s.V.entry i j - s.V.entry i (2 * n) *
          ((1 / s.V.entry (2 * n + 1) (2 * n + 1)) * s.V.entry j (2 * n))) := by
  obtain ⟨B, hB, hBN, hBRr, hBRc, hBVr, hBVc, hBRe, hBVe⟩ :=
    only_modes_last s n hN hRr hVr hVc hReal
  obtain ⟨A, hA, hAN, hARr, hARc, hAVr, hAVc, hARe, hAVe⟩ :=
    partial_trace_last s n hN hRr hVr hVc hReal
  have hidx : (List.range s.N_modes).drop (s.N_modes - (R_m.rows + 1) / 2) = [n] := by
    rw [hN, hmr, show n + 1 - (2 + 1) / 2 = n from by omega]
    exact range_drop_last n
  have hv : B.V.entry 1 1 = s.V.entry (2 * n + 1) (2 * n + 1) := by
    rw [hBVe 1 1]
    norm_num
  set V_AB : Mat := sliceBlock s.V 0 (2 * A.N_modes) (2 * A.N_modes)
    (2 * A.N_modes + 2 * B.N_modes) with hVABdef
  set MP : Mat := diag2 (1 / B.V.entry 1 1) 0 with hMPdef
  have hVABc : V_AB.cols = 2 := by
    show 2 * A.N_modes + 2 * B.N_modes - 2 * A.N_modes = 2
    rw [hAN, hBN]
    omega
  have hVABr : V_AB.rows = 2 * n := by
    show 2 * A.N_modes - 0 = 2 * n
    rw [hAN]
    omega
  have hVABe : ∀ i k, V_AB.entry i k = s.V.entry i (2 * n + k) := by
    intro i k
    show s.V.entry (0 + i) (2 * A.N_modes + k) = _
    rw [hAN, Nat.zero_add]
  have hMPe : ∀ i j, MP.entry i j =
      if i = j then (if i = 0 then 1 / B.V.entry 1 1 else if i = 1 then 0 else 0) else 0 :=
    diag2_diagLike _ _
  have hexp : ∀ (X : Mat) (i j0 : ℕ),
      (V_AB.mulRaw X).entry i j0 = ∑ k ∈ Finset.range 2, V_AB.entry i k * X.entry k j0 := by
    intro X i j0
    show (∑ k ∈ Finset.range V_AB.cols, V_AB.entry i k * X.entry k j0) = _
    rw [hVABc]
  set dR : Mat := ⟨B.R.rows, B.R.cols, fun i j => B.R.entry i j - R_m.entry i j⟩ with hdRdef
  set t1 : Mat := MP.mulRaw dR with ht1def
  set t2 : Mat := V_AB.mulRaw t1 with ht2def
  set newR : Mat := ⟨A.R.rows, A.R.cols, fun i j => A.R.entry i j - t2.entry i j⟩ with hnewRdef
  set t3 : Mat := MP.mulRaw V_AB.transpose with ht3def
  set t4 : Mat := V_AB.mulRaw t3 with ht4def
  set newV : Mat := ⟨A.V.rows, A.V.cols, fun i j => A.V.entry i j - t4.entry i j⟩ with hnewVdef
  -- unfold the measurement pipeline
  simp only [measurement_homodyne]
  rw [hidx, hB, hA]
  simp only []
  rw [show npSub B.R R_m = .ok dR from npSub_ok (by rw [hBRr, hmr]) (by rw [hBRc, hmc])]
  simp only []
  rw [show npMatmul MP dR = .ok t1 from npMatmul_ok (by show (2 : ℕ) = dR.rows; rw [show dR.rows = B.R.rows from rfl, hBRr])]
  simp only []
  rw [show npMatmul V_AB t1 = .ok t2 from npMatmul_ok (by rw [hVABc]; rfl)]
  simp only []
  rw [show npSub A.R t2 = .ok newR from npSub_ok (by rw [hARr, show t2.rows = V_AB.rows from rfl, hVABr]) (by rw [hARc, show t2.cols = B.R.cols from rfl, hBRc])]
  simp only []
  rw [show npMatmul MP V_AB.transpose = .ok t3 from npMatmul_ok (by show (2 : ℕ) = V_AB.transpose.rows; rw [show V_AB.transpose.rows = V_AB.cols from rfl, hVABc])]
  simp only []
  rw [show npMatmul V_AB t3 = .ok t4 from npMatmul_ok (by rw [hVABc]; rfl)]
  simp only []
  rw [show npSub A.V t4 = .ok newV from npSub_ok (by rw [hAVr, show t4.rows = V_AB.rows from rfl, hVABr]) (by rw [hAVc, show t4.cols = V_AB.rows from rfl, hVABr])]
  simp only []
  refine ⟨{ A with R := newR, V := newV }, rfl, hAN, by simpa using hARr, by simpa using hARc,
    by simpa using hAVr, by simpa using hAVc, ?_, ?_⟩
  · intro i hi
    show A.R.entry i 0 - t2.entry i 0 = _
    rw [hARe i hi]
    congr 1
    rw [ht2def, hexp t1 i 0, Finset.sum_range_succ, Finset.sum_range_succ,
      Finset.sum_range_zero]
    rw [ht1def, mulRaw_diagLike_left (n := 2) rfl hMPe (by omega),
      mulRaw_diagLike_left (n := 2) rfl hMPe (by omega)]
    rw [hVABe i 0, hVABe i 1]
    have hdR0 : dR.entry 0 0 = s.R.entry (2 * n) 0 - R_m.entry 0 0 := by
      show B.R.entry 0 0 - R_m.entry 0 0 = _
      rw [hBRe 0]
      norm_num
    rw [hdR0, hv]
    norm_num
  · intro i hi j hj
    show A.V.entry i j - t4.entry i j = _
    rw [hAVe i hi j hj]
    congr 1
    rw [ht4def, hexp t3 i j, Finset.sum_range_succ, Finset.sum_range_succ,
      Finset.sum_range_zero]
    rw [ht3def, mulRaw_diagLike_left (n := 2) rfl hMPe (by omega),
      mulRaw_diagLike_left (n := 2) rfl hMPe (by omega)]
    have htr : ∀ k, V_AB.transpose.entry k j = s.V.entry j (2 * n + k) := by
      intro k
      show V_AB.entry j k = _
      exact hVABe j k
    rw [htr 0, htr 1, hVABe i 0, hVABe i 1, hv]
    norm_num

theorem npSolve_ok_inv {A b x : Mat} (h : npSolve A b = .ok x) : MulEqB A x b := by
  unfold npSolve at h
  split at h
  next hcond =>
    injection h with h'
    rw [← h']
    exact hcond.2.2.choose_spec
  next =>
    exact absurd h (by simp)

theorem solve_continuous_lyapunov_spec {a q : Mat} (hex : ∃ x : Mat, LyapEqB a x q) :
    LyapEqB a (solve_continuous_lyapunov a q) q := by
  unfold solve_continuous_lyapunov
  rw [dif_pos hex]
  exact hex.choose_spec

theorem mkState_ok_inv {R0 V0 : Mat} {st : gaussian_state} (h : mkState R0 V0 = .ok st) :
    st.R = ⟨R0.rows, 1, fun i _ => R0.entry i 0⟩ ∧ st.V = V0 ∧ st.N_modes = R0.rows / 2 := by
  unfold mkState at h
  split at h
  next =>
    injection h with h'
    rw [← h']
    exact ⟨rfl, rfl, rfl⟩
  next =>
    exact absurd h (by simp)

theorem steady_state_const_ok_inv {sys : gaussian_dynamics} {A0 a b c : Mat} {w : ℝ}
    {ss : gaussian_state} (hA : sys.A = Drift.const A0)
    (hok : steady_state sys a b c w = .ok ss) :
    is_stable A0 ∧ ∃ R_ss, npSolve A0 sys.N.neg = .ok R_ss ∧
      mkState R_ss (solve_continuous_lyapunov A0 sys.D.neg) = .ok ss := by
  unfold steady_state at hok
  rw [hA] at hok
  simp only [] at hok
  by_cases hst : is_stable A0
  · rw [if_pos hst] at hok
    refine ⟨hst, ?_⟩
    cases hns : npSolve A0 sys.N.neg with
    | error e =>
      rw [hns] at hok
      simp at hok
    | ok R_ss =>
      rw [hns] at hok
      simp only [] at hok
      exact ⟨R_ss, rfl, hok⟩
  · rw [if_neg hst] at hok
    simp at hok

theorem is_stable_negI4 : is_stable negI4 := by
  rintro ⟨lam, hmem, hpos⟩
  rw [show eigMultiset negI4 = eigMultiset (diagConstMat 4 (-1)) from rfl,
    mem_eigMultiset_diagConst (by norm_num)] at hmem
  subst hmem
  norm_num at hpos

theorem det_negI4 : (toSquare negI4).det ≠ 0 := by
  show (toSquare (diagConstMat 4 (-1))).det ≠ 0
  rw [toSquare_diagConst, Matrix.det_diagonal]
  simp

/-! ### Claims -/

/-- C1: for every `gaussian_dynamics` whose drift is a function of time,
`steady_state` does NOT return the Floquet steady state without error: after
the `floquet` call, control falls through to
`np.linalg.solve(self.A, -self.N)` (source line 976) with the callable drift,
which raises.  The call always ends in an error. -/
theorem claim_C1_steady_state_timevarying_raises
    (sys : gaussian_dynamics) (f : ℝ → Mat) (a b c : Mat) (w : ℝ)
    (hA : sys.A = Drift.fn f) :
    ∃ e, steady_state sys a b c w = .error e := by
  unfold steady_state
  rw [hA]
  cases hf : floquet sys a b c w with
  | error e => exact ⟨e, by simp [hf]⟩
  | ok st => exact ⟨.typeErrorCallable, by simp [hf]⟩

/-- C1 witness: a concrete time-varying system on which `steady_state` errors. -/
theorem claim_C1_witness :
    ∃ e, steady_state sysTimeVarying (zerosMat 2 2) (zerosMat 2 2) (zerosMat 2 2) 0 =
      .error e :=
  claim_C1_steady_state_timevarying_raises sysTimeVarying (fun _ => eyeMat 2)
    (zerosMat 2 2) (zerosMat 2 2) (zerosMat 2 2) 0 rfl

/-- C3: `langevin_semi_classical` never runs to completion: its first step
`dt = self.t(2) - self.t(1)` (source line 1043) applies call syntax to the
stored numpy time array and raises `TypeError` before any sampling,
integration or ensemble averaging happens. -/
theorem claim_C3_semiclassical_raises
    (sys : gaussian_dynamics) (t_span : List ℝ) (N_ensemble : ℕ)
    (h : 2 ≤ t_span.length) :
    langevin_semi_classical sys t_span N_ensemble = .error .typeErrorNdarrayCall := rfl

/-- C3 witness: the failure at the concrete grid `[0, 1]` with one trial. -/
theorem claim_C3_witness :
    langevin_semi_classical sysC6 [0, 1] 1 = .error .typeErrorNdarrayCall :=
  claim_C3_semiclassical_raises sysC6 [0, 1] 1 (by norm_num)

/-- C9: `partial_trace` raises its invalid-reduction assertion exactly when
more modes are listed than exist (`N_A = len(R) - 2*len(indexes) < 0`); an
index list of admissible length whose values do not all name existing modes
passes that check (it can only fail later with a different, broadcast error). -/
theorem claim_C9_partial_trace_error_iff
    (s : gaussian_state) (idx : List ℕ) (h : s.R.rows = 2 * s.N_modes) :
    partial_trace s idx = .error .assertReduction ↔ s.N_modes < idx.length := by
  unfold partial_trace
  by_cases hc : (s.R.rows : ℤ) - 2 * idx.length ≥ 0
  · rw [if_pos hc]
    constructor
    · intro heq
      exfalso
      simp only [] at heq
      split_ifs at heq with hb
      · unfold mkState at heq
        split_ifs at heq <;> simp at heq
      · simp at heq
    · intro hlt
      exfalso
      rw [h] at hc
      push_cast at hc
      omega
  · rw [if_neg hc]
    constructor
    · intro _
      rw [h] at hc
      push_cast at hc
      omega
    · intro _
      rfl

/-- C9 witness: tracing out `[0, 0]` from the single-mode vacuum lists two
indices against one mode and raises the invalid-reduction assertion. -/
theorem claim_C9_witness :
    partial_trace vacuumState [0, 0] = .error .assertReduction :=
  (claim_C9_partial_trace_error_iff vacuumState [0, 0] rfl).mpr (by norm_num [vacuumState])

/-- C5 counterexample: the drift `[[0, 1], [-1, 0]]` has eigenvalues `±i` —
both with non-negative (zero) real part — yet the constructor classifies it
as stable (`is_stable` only reacts to strictly positive real parts), so the
claim "any eigenvalue with non-negative real part ⇒ is_stable = False" fails. -/
theorem claim_C5_counterexample :
    is_stable rotDriftMat ∧ ∃ lam ∈ eigMultiset rotDriftMat, 0 ≤ lam.re := by
  constructor
  · rintro ⟨lam, hmem, hpos⟩
    rw [eigMultiset_rotDriftMat] at hmem
    simp only [Multiset.insert_eq_cons, Multiset.mem_cons, Multiset.mem_singleton] at hmem
    rcases hmem with h | h <;> subst h <;> simp [Complex.I_re] at hpos
  · refine ⟨Complex.I, ?_, by simp [Complex.I_re]⟩
    rw [eigMultiset_rotDriftMat]
    simp

/-- C5 (amended): `is_stable = all(Re(eig) ≤ 0)` — False exactly when some
eigenvalue has strictly positive real part — and for a constant drift with
such an eigenvalue `steady_state` raises the instability assertion. -/
theorem claim_C5_stability_flag :
    (∀ A : Mat, is_stable A ↔ ∀ lam ∈ eigMultiset A, lam.re ≤ 0) ∧
    (∀ (sys : gaussian_dynamics) (A0 a b c : Mat) (w : ℝ),
      sys.A = Drift.const A0 →
      (∃ lam ∈ eigMultiset A0, 0 < lam.re) →
      steady_state sys a b c w = .error .assertStable) := by
  constructor
  · intro A
    unfold is_stable
    push_neg
    rfl
  · intro sys A0 a b c w hA hex
    unfold steady_state
    rw [hA]
    simp only []
    rw [if_neg (fun hst => hst hex)]

/-- C5 witness: the constant drift `I₂` (eigenvalue 1 twice) is flagged
unstable and `steady_state` raises the instability assertion. -/
theorem claim_C5_witness :
    steady_state sysUnstable (zerosMat 2 2) (zerosMat 2 2) (zerosMat 2 2) 0 =
      .error .assertStable :=
  claim_C5_stability_flag.2 sysUnstable (diagConstMat 2 1) (zerosMat 2 2) (zerosMat 2 2)
    (zerosMat 2 2) 0 rfl
    ⟨1, (mem_eigMultiset_diagConst (by norm_num) 1 1).mpr rfl, by norm_num⟩

/-- C10 counterexample: `gaussian_state(R0, V0)` with the real 1-D length-1
`R0 = [0]` and the matching square `V0 = [[1]]` raises the constructor
assertion (the `np.squeeze`-based shape checks reject one-entry arrays), so
the constructor does not succeed for *every* real 1-D `R0` with
`len(R0) == len(V0)`. -/
theorem claim_C10_counterexample :
    isRealMat (zerosMat 1 1) ∧ (zerosMat 1 1).rows = (eyeMat 1).rows ∧
    (eyeMat 1).rows = (eyeMat 1).cols ∧
    mkState (zerosMat 1 1) (eyeMat 1) = .error .assertCtor := by
  refine ⟨?_, rfl, rfl, ?_⟩
  · intro i _ j _
    simp [zerosMat]
  · unfold mkState
    rw [if_neg]
    rintro ⟨-, hvec, -, -, -⟩
    simp [squeezeNdim, zerosMat] at hvec

/-- C10 (amended): the explicit constructor succeeds for every real 1-D `R0`
of length `M ≥ 2` and every M×M `V0` — with no evenness check on `M` and no
symmetry or realness check on `V0` (`V0` here is an arbitrary complex
matrix) — setting `N_modes = ⌊M/2⌋`; for odd `M` the derived `Omega` has
dimension `2⌊M/2⌋ ≠ M`, the dimension of `V`. -/
theorem claim_C10_constructor
    (R0 V0 : Mat) (M : ℕ) (hM : 2 ≤ M)
    (hRr : R0.rows = M) (hRc : R0.cols = 1) (hVr : V0.rows = M) (hVc : V0.cols = M)
    (hReal : isRealMat R0) :
    ∃ st, mkState R0 V0 = .ok st ∧ st.N_modes = M / 2 ∧ st.V = V0 ∧
      st.Omega.rows = 2 * (M / 2) ∧ (M % 2 = 1 → st.Omega.rows ≠ st.V.rows) := by
  rw [mkState_ok R0 V0 ⟨hReal, ?_, ?_, ?_, ?_⟩]
  · refine ⟨_, rfl, by simp [hRr], rfl, ?_, ?_⟩
    · show 2 * (R0.rows / 2) = 2 * (M / 2)
      rw [hRr]
    · intro hodd
      show 2 * (R0.rows / 2) ≠ V0.rows
      rw [hRr, hVr]
      omega
  · show (if R0.rows = 1 then 0 else 1) + (if R0.cols = 1 then 0 else 1) = 1
    rw [hRr, hRc, if_neg (show ¬M = 1 from by omega), if_pos rfl]
  · show (if V0.rows = 1 then 0 else 1) + (if V0.cols = 1 then 0 else 1) = 2
    rw [hVr, hVc, if_neg (show ¬M = 1 from by omega)]
  · rw [hRr, hVr]
  · rw [hVr, hVc]

/-- C10 witness: an odd-length (M = 3) construction with an asymmetric
complex `V0` succeeds, with `N_modes = 1` and a 2×2 `Omega` against a 3×3 `V`. -/
theorem claim_C10_witness :
    ∃ st, mkState (zerosMat 3 1) vOdd = .ok st ∧ st.N_modes = 1 ∧
      st.Omega.rows = 2 ∧ st.V.rows = 3 := by
  obtain ⟨st, hok, hN, hV, hOm, -⟩ :=
    claim_C10_constructor (zerosMat 3 1) vOdd 3 (by norm_num) rfl rfl rfl rfl
      (fun i _ j _ => by simp [zerosMat])
  refine ⟨st, hok, by rw [hN], by rw [hOm], by rw [hV]; rfl⟩

/-- C7 counterexample: `von_Neumann_Entropy` on the vacuum state does NOT
return exactly 0: the `ν ≈ 1` guard nudges the symplectic eigenvalue to
`1 + 1e-15` first, so the returned value is the strictly positive
`vacEntropyVal`. -/
theorem claim_C7_counterexample :
    EntropyOf vacuumState vacEntropyVal ∧ ∀ E, EntropyOf vacuumState E → E ≠ 0 := by
  refine ⟨entropyOf_vacuum_exists, fun E hE => ?_⟩
  rw [entropyOf_vacuum hE]
  exact ne_of_gt vacEntropyVal_pos

/-- C7 (amended): for the vacuum state `symplectic_eigenvalues()` returns
exactly `[1]` and `purity()` returns exactly 1, but `von_Neumann_Entropy()`
returns the strictly positive value
`(1+5e-16)·ln(1+5e-16) − 5e-16·ln(5e-16)` (≈ 1.8e-14), not exactly 0. -/
theorem claim_C7_vacuum_metrics :
    (∀ out, SymplecticEigsOf vacuumState out → out = [1]) ∧
    SymplecticEigsOf vacuumState [1] ∧
    (∀ p, PurityOf vacuumState p → p = 1) ∧
    (∀ E, EntropyOf vacuumState E → E = vacEntropyVal ∧ 0 < E) := by
  refine ⟨fun out h => symplecticEigsOf_vacuum h, symplecticEigsOf_vacuum_exists,
    fun p h => purityOf_vacuum h, fun E hE => ?_⟩
  have hEv := entropyOf_vacuum hE
  exact ⟨hEv, hEv ▸ vacEntropyVal_pos⟩

/-- C7 witness: the entropy relation instantiated at its actual output value. -/
theorem claim_C7_witness :
    ∃ E, EntropyOf vacuumState E ∧ E = vacEntropyVal ∧ 0 < E :=
  ⟨vacEntropyVal, entropyOf_vacuum_exists,
    claim_C7_vacuum_metrics.2.2.2 vacEntropyVal entropyOf_vacuum_exists⟩

/-- C6: whenever `steady_state` on a constant drift returns a state (and the
continuous Lyapunov equation is solvable, the contract under which the
`scipy` solver's output is specified), that state satisfies
`A·R_ss + N_noise = 0` and `A·V_ss + V_ss·Aᵗ + D = 0`; and in the concrete
scenario `A = diag(-1,-1,-1,-1)`, `D = I₄`, `N_noise = 0`, initial state two
vacua, the system is flagged stable and `steady_state` returns a state with
`V_ss = 0.5·I₄` and `R_ss = 0` exactly. -/
theorem claim_C6_steady_state :
    (∀ (sys : gaussian_dynamics) (A0 : Mat) (ss : gaussian_state) (a b c : Mat) (w : ℝ),
      sys.A = Drift.const A0 → sys.N.cols = 1 →
      (∃ x : Mat, LyapEqB A0 x sys.D.neg) →
      steady_state sys a b c w = .ok ss →
      SteadyLinear A0 ss.R sys.N ∧ SteadyLyapunov A0 ss.V sys.D) ∧
    (is_stable negI4 ∧
      ∃ ss, steady_state sysC6 (zerosMat 4 4) (zerosMat 4 4) (zerosMat 4 4) 0 = .ok ss ∧
        (∀ i < 4, ∀ j < 4, ss.V.entry i j = if i = j then (1 / 2 : ℂ) else 0) ∧
        (∀ i < 4, ss.R.entry i 0 = 0)) := by
  constructor
  · intro sys A0 ss a b c w hA hNc hLy hok
    obtain ⟨hst, R_ss, hns, hmk⟩ := steady_state_const_ok_inv hA hok
    have hmul : MulEqB A0 R_ss sys.N.neg := npSolve_ok_inv hns
    obtain ⟨hssR, hssV, -⟩ := mkState_ok_inv hmk
    constructor
    · intro i hi
      have h0 : (0 : ℕ) < sys.N.neg.cols := by
        show 0 < sys.N.cols
        rw [hNc]
        norm_num
      have hme := hmul.2.2 i hi 0 h0
      have hsum : (A0.mulRaw ss.R).entry i 0 = (A0.mulRaw R_ss).entry i 0 := by
        rw [hssR]
        rfl
      rw [hsum, hme]
      show -(sys.N.entry i 0) + sys.N.entry i 0 = 0
      ring
    · intro i hi j hj
      have hly := solve_continuous_lyapunov_spec hLy
      rw [← hssV] at hly
      have hlij := hly.2.2 i hi j hj
      rw [hlij]
      show -(sys.D.entry i j) + sys.D.entry i j = 0
      ring
  · refine ⟨is_stable_negI4, ?_⟩
    have hSolex : ∃ x : Mat, MulEqB negI4 x (zerosMat 4 1).neg := by
      refine ⟨zerosMat 4 1, rfl, rfl, fun i _ j _ => ?_⟩
      show (∑ k ∈ Finset.range 4, negI4.entry i k * (0 : ℂ)) = -0
      simp
    have hLyex : ∃ x : Mat, LyapEqB negI4 x (eyeMat 4).neg := by
      refine ⟨diagConstMat 4 (1 / 2), rfl, rfl, fun i hi j hj => ?_⟩
      rw [mulRaw_diagLike_left (n := 4) rfl (fun _ _ => rfl) hi,
        mulRaw_diagLike_right (n := 4) rfl
          (fun k l => show (if l = k then (-1 : ℂ) else 0) = if k = l then -1 else 0 from by
            by_cases h : k = l
            · subst h; rfl
            · rw [if_neg h, if_neg (Ne.symm h)]) hj]
      show (-1 : ℂ) * (if i = j then 1 / 2 else 0) + (if i = j then (1 / 2 : ℂ) else 0) * -1 =
        -(if i = j then 1 else 0)
      by_cases h : i = j
      · simp only [if_pos h]
        ring
      · simp only [if_neg h]
        ring
    have hcond : negI4.rows = negI4.cols ∧ (toSquare negI4).det ≠ 0 ∧
        ∃ x : Mat, MulEqB negI4 x (zerosMat 4 1).neg := ⟨rfl, det_negI4, hSolex⟩
    unfold steady_state
    simp only [sysC6]
    rw [if_pos is_stable_negI4]
    unfold npSolve
    rw [dif_pos hcond]
    simp only []
    have hxspec : MulEqB negI4 hcond.2.2.choose (zerosMat 4 1).neg := hcond.2.2.choose_spec
    have hxr : hcond.2.2.choose.rows = 4 := hxspec.1
    have hxc : hcond.2.2.choose.cols = 1 := hxspec.2.1
    have hxzero : ∀ i < 4, hcond.2.2.choose.entry i 0 = 0 := by
      intro i hi
      have hme := hxspec.2.2 i hi 0 (by show (0 : ℕ) < 1; norm_num)
      rw [mulRaw_diagLike_left (n := 4) rfl (fun _ _ => rfl) hi] at hme
      have : (-1 : ℂ) * hcond.2.2.choose.entry i 0 = -0 := hme
      simpa using this
    have hlspec : LyapEqB negI4 (solve_continuous_lyapunov negI4 (eyeMat 4).neg)
        (eyeMat 4).neg := solve_continuous_lyapunov_spec hLyex
    have hVr4 : (solve_continuous_lyapunov negI4 (eyeMat 4).neg).rows = 4 := hlspec.1
    have hVc4 : (solve_continuous_lyapunov negI4 (eyeMat 4).neg).cols = 4 := hlspec.2.1
    have hVhalf : ∀ i < 4, ∀ j < 4,
        (solve_continuous_lyapunov negI4 (eyeMat 4).neg).entry i j =
          if i = j then (1 / 2 : ℂ) else 0 := by
      intro i hi j hj
      have heq := hlspec.2.2 i hi j hj
      rw [mulRaw_diagLike_left (n := 4) rfl (fun _ _ => rfl) hi,
        mulRaw_diagLike_right (n := 4) hVc4
          (fun k l => show (if l = k then (-1 : ℂ) else 0) = if k = l then -1 else 0 from by
            by_cases h : k = l
            · subst h; rfl
            · rw [if_neg h, if_neg (Ne.symm h)]) hj] at heq
      by_cases hij : i = j
      · subst hij
        have heq2 : (-1 : ℂ) * (solve_continuous_lyapunov negI4 (eyeMat 4).neg).entry i i +
            (solve_continuous_lyapunov negI4 (eyeMat 4).neg).entry i i * (-1) = -1 := by
          simpa [Mat.neg, eyeMat] using heq
        rw [if_pos rfl]
        linear_combination (-1 / 2 : ℂ) * heq2
      · have heq2 : (-1 : ℂ) * (solve_continuous_lyapunov negI4 (eyeMat 4).neg).entry i j +
            (solve_continuous_lyapunov negI4 (eyeMat 4).neg).entry i j * (-1) = 0 := by
          simpa [Mat.neg, eyeMat, hij] using heq
        rw [if_neg hij]
        linear_combination (-1 / 2 : ℂ) * heq2
    rw [mkState_ok _ _ ⟨?_, ?_, ?_, ?_, ?_⟩]
    · refine ⟨_, rfl, ?_, ?_⟩
      · intro i hi j hj
        exact hVhalf i hi j hj
      · intro i hi
        show hcond.2.2.choose.entry i 0 = 0
        exact hxzero i hi
    · intro i hi j hj
      rw [hxc] at hj
      have hj0 : j = 0 := by omega
      subst hj0
      rw [hxzero i (by rw [hxr] at hi; exact hi)]
      simp
    · show (if hcond.2.2.choose.rows = 1 then 0 else 1) +
        (if hcond.2.2.choose.cols = 1 then 0 else 1) = 1
      rw [hxr, hxc, if_neg (by norm_num), if_pos rfl]
    · show (if (solve_continuous_lyapunov negI4 (eyeMat 4).neg).rows = 1 then 0 else 1) +
        (if (solve_continuous_lyapunov negI4 (eyeMat 4).neg).cols = 1 then 0 else 1) = 2
      rw [hVr4, hVc4, if_neg (by norm_num)]
    · rw [hxr, hVr4]
    · rw [hVr4, hVc4]

/-- C6 witness: the general steady-state property instantiated on the
concrete stable scenario system. -/
theorem claim_C6_witness :
    ∃ ss, steady_state sysC6 (zerosMat 4 4) (zerosMat 4 4) (zerosMat 4 4) 0 = .ok ss ∧
      SteadyLinear negI4 ss.R sysC6.N ∧ SteadyLyapunov negI4 ss.V sysC6.D := by
  obtain ⟨ss, hok, -, -⟩ := claim_C6_steady_state.2.2
  refine ⟨ss, hok, claim_C6_steady_state.1 sysC6 negI4 ss (zerosMat 4 4) (zerosMat 4 4)
    (zerosMat 4 4) 0 rfl rfl ?_ hok⟩
  refine ⟨diagConstMat 4 (1 / 2), rfl, rfl, fun i hi j hj => ?_⟩
  rw [mulRaw_diagLike_left (n := 4) rfl (fun _ _ => rfl) hi,
    mulRaw_diagLike_right (n := 4) rfl
      (fun k l => show (if l = k then (-1 : ℂ) else 0) = if k = l then -1 else 0 from by
        by_cases h : k = l
        · subst h; rfl
        · rw [if_neg h, if_neg (Ne.symm h)]) hj]
  show (-1 : ℂ) * (if i = j then 1 / 2 else 0) + (if i = j then (1 / 2 : ℂ) else 0) * -1 =
    -(if i = j then 1 else 0)
  by_cases h : i = j
  · simp only [if_pos h]
    ring
  · simp only [if_neg h]
    ring

/-- C2 counterexample: on the two-mode state with covariance `vC2` (measured
mode has position variance 1 and momentum variance 4), the code's update uses
`1/4` — the reciprocal of the 0-based entry `V_B[1,1]`, the momentum
variance — producing `V_A[0,0] = 7/4`, whereas the claimed position-variance
pseudo-inverse `diag(1/V_B[0,0], 0)` would produce `V_A[0,0] = 1`. -/
theorem claim_C2_counterexample :
    ∃ t, measurement_homodyne sC2 (zerosMat 2 1) = .ok t ∧
      t.V.entry 0 0 = 7 / 4 ∧
      sC2.V.entry 0 0 - sC2.V.entry 0 2 * ((1 / sC2.V.entry 2 2) * sC2.V.entry 0 2) = 1 ∧
      (7 / 4 : ℂ) ≠ 1 := by
  obtain ⟨t, hok, hN, hRr2, hRc2, hVr2, hVc2, hRe, hVe⟩ :=
    homodyne_m1 sC2 1 (zerosMat 2 1) rfl rfl rfl rfl rfl
      (fun i _ => by simp [sC2, zerosMat]) rfl rfl
  refine ⟨t, hok, ?_, ?_, by norm_num⟩
  · rw [hVe 0 (by norm_num) 0 (by norm_num)]
    norm_num [sC2, vC2]
  · norm_num [sC2, vC2]

/-- C2 (amended): `measurement_homodyne` on an `(n+1)`-mode state measuring
the last mode applies the conditional update with the Moore-Penrose
pseudo-inverse `diag(1/v, 0)` where `v = V[2n+1, 2n+1]` is the SECOND
diagonal entry (0-based `V_B[1,1]`) of the measured mode's 2×2 covariance
block — its momentum-quadrature variance, not the position variance. -/
theorem claim_C2_homodyne_update (s : gaussian_state) (n : ℕ) (R_m : Mat)
    (hN : s.N_modes = n + 1) (hRr : s.R.rows = 2 * (n + 1)) (hRc : s.R.cols = 1)
    (hVr : s.V.rows = 2 * (n + 1)) (hVc : s.V.cols = 2 * (n + 1))
    (hReal : ∀ i < 2 * (n + 1), (s.R.entry i 0).im = 0)
    (hmr : R_m.rows = 2) (hmc : R_m.cols = 1) :
    ∃ t, measurement_homodyne s R_m = .ok t ∧
      t.N_modes = n ∧
      (∀ i < 2 * n, t.R.entry i 0 =
        s.R.entry i 0 - s.V.entry i (2 * n) *
          ((1 / s.V.entry (2 * n + 1) (2 * n + 1)) * (s.R.entry (2 * n) 0 - R_m.entry 0 0))) ∧
      (∀ i < 2 * n, ∀ j < 2 * n, t.V.entry i j =
        s.V.entry i j - s.V.entry i (2 * n) *
          ((1 / s.V.entry (2 * n + 1) (2 * n + 1)) * s.V.entry j (2 * n))) := by
  obtain ⟨t, hok, hNm, -, -, -, -, hRe, hVe⟩ :=
    homodyne_m1 s n R_m hN hRr hRc hVr hVc hReal hmr hmc
  exact ⟨t, hok, hNm, hRe, hVe⟩

/-- C2 witness: the update theorem instantiated on the concrete two-mode
state `sC2`. -/
theorem claim_C2_witness :
    ∃ t, measurement_homodyne sC2 (zerosMat 2 1) = .ok t ∧ t.N_modes = 1 := by
  obtain ⟨t, hok, hNm, -, -⟩ :=
    claim_C2_homodyne_update sC2 1 (zerosMat 2 1) rfl rfl rfl rfl rfl
      (fun i _ => by simp [sC2, zerosMat]) rfl rfl
  exact ⟨t, hok, hNm⟩

/-- C4 counterexample: measuring the last `m = 2` modes of the three-mode
state `sC4` with a length-4 outcome vector does not return a conditional
state: the 2×2 `MP_inverse` is matmul'd against the 4×1 vector
`rho_B.R - R_m` and numpy raises a shape `ValueError`. -/
theorem claim_C4_counterexample :
    measurement_homodyne sC4 (zerosMat 4 1) = .error .valueErrorShapes := by
  have hidx : (List.range sC4.N_modes).drop
      (sC4.N_modes - ((zerosMat 4 1).rows + 1) / 2) = [1, 2] := by
    show (List.range 3).drop (3 - (4 + 1) / 2) = [1, 2]
    rfl
  have hOM : ∃ B, only_modes sC4 [1, 2] = .ok B ∧ B.R.rows = 4 ∧ B.R.cols = 1 ∧
      B.V.entry 1 1 = 1 := by
    unfold only_modes
    rw [if_pos (by norm_num [sC4, zerosMat, eyeMat]), if_pos (by
      intro m hm
      simp only [List.mem_cons, List.mem_singleton, List.not_mem_nil, or_false] at hm
      rcases hm with rfl | rfl <;> refine ⟨by norm_num [sC4, zerosMat, eyeMat], by norm_num [sC4, zerosMat, eyeMat], by norm_num [sC4, zerosMat, eyeMat]⟩)]
    rw [mkState_ok _ _ ?_]
    · refine ⟨_, rfl, by simp, rfl, rfl⟩
    · refine ⟨?_, by simp [squeezeNdim], by simp [squeezeNdim], by simp, by simp⟩
      intro i hi j hj
      have hj1 : j < 1 := by simpa using hj
      have hj0 : j = 0 := by omega
      subst hj0
      show ((sC4.R.entry (2 * ([1, 2].getD (i / 2) 0) + i % 2) 0)).im = 0
      simp [sC4, zerosMat]
  have hPT : ∃ A2, partial_trace sC4 [1, 2] = .ok A2 ∧ A2.N_modes = 1 := by
    unfold partial_trace
    rw [if_pos (by norm_num [sC4, zerosMat, eyeMat])]
    have hfil : (List.range sC4.N_modes).filter (fun m => m ∉ ([1, 2] : List ℕ)) = [0] := by
      show (List.range 3).filter (fun m => m ∉ ([1, 2] : List ℕ)) = [0]
      rfl
    rw [hfil]
    rw [if_pos (by
      refine ⟨by norm_num [sC4, zerosMat, eyeMat], ?_⟩
      intro m hm
      simp only [List.mem_singleton] at hm
      subst hm
      refine ⟨by norm_num [sC4, zerosMat, eyeMat], by norm_num [sC4, zerosMat, eyeMat], by norm_num [sC4, zerosMat, eyeMat]⟩)]
    rw [mkState_ok _ _ ?_]
    · refine ⟨_, rfl, by norm_num [sC4, zerosMat, eyeMat]⟩
    · refine ⟨?_, ?_, ?_, by simp, by simp⟩
      · intro i hi j hj
        have hi2 : i < sC4.R.rows - 2 * ([1, 2] : List ℕ).length := by simpa using hi
        have hj1 : j < 1 := by simpa using hj
        have hj0 : j = 0 := by omega
        subst hj0
        show ((if i < 2 * ([0] : List ℕ).length then
          sC4.R.entry (2 * ([0].getD (i / 2) 0) + i % 2) 0 else 0)).im = 0
        split_ifs
        · simp [sC4, zerosMat]
        · simp
      · show (if sC4.R.rows - 2 * ([1, 2] : List ℕ).length = 1 then 0 else 1) +
          (if 1 = 1 then 0 else 1) = 1
        norm_num [sC4, zerosMat, eyeMat]
      · show (if sC4.R.rows - 2 * ([1, 2] : List ℕ).length = 1 then 0 else 1) +
          (if sC4.R.rows - 2 * ([1, 2] : List ℕ).length = 1 then 0 else 1) = 2
        norm_num [sC4, zerosMat, eyeMat]
  obtain ⟨B, hB, hBRr, hBRc, hB11⟩ := hOM
  obtain ⟨A2, hA2, hA2N⟩ := hPT
  simp only [measurement_homodyne]
  rw [hidx, hB, hA2]
  simp only []
  rw [show npSub B.R (zerosMat 4 1) =
      .ok ⟨B.R.rows, B.R.cols, fun i j => B.R.entry i j - (zerosMat 4 1).entry i j⟩ from
    npSub_ok (by rw [hBRr]; rfl) (by rw [hBRc]; rfl)]
  simp only []
  rw [show npMatmul (diag2 (1 / B.V.entry 1 1) 0)
      (⟨B.R.rows, B.R.cols, fun i j => B.R.entry i j - (zerosMat 4 1).entry i j⟩ : Mat) =
      .error .valueErrorShapes from by
    unfold npMatmul
    rw [if_neg (by
      show ¬((2 : ℕ) = B.R.rows)
      rw [hBRr]
      norm_num)]]

/-- C4 (amended): `measurement_homodyne` with a length-2 outcome vector
(measuring the last single mode, `m = 1`) succeeds on every well-formed
`(n+1)`-mode state and returns a new `n`-mode conditional state; the parent
state is untouched (the update is built on fresh `partial_trace` output). -/
theorem claim_C4_homodyne_last_mode (s : gaussian_state) (n : ℕ) (R_m : Mat)
    (hN : s.N_modes = n + 1) (hRr : s.R.rows = 2 * (n + 1)) (hRc : s.R.cols = 1)
    (hVr : s.V.rows = 2 * (n + 1)) (hVc : s.V.cols = 2 * (n + 1))
    (hReal : ∀ i < 2 * (n + 1), (s.R.entry i 0).im = 0)
    (hmr : R_m.rows = 2) (hmc : R_m.cols = 1) :
    ∃ t, measurement_homodyne s R_m = .ok t ∧ t.N_modes = n ∧
      t.R.rows = 2 * n ∧ t.R.cols = 1 ∧ t.V.rows = 2 * n ∧ t.V.cols = 2 * n := by
  obtain ⟨t, hok, hNm, h1, h2, h3, h4, -, -⟩ :=
    homodyne_m1 s n R_m hN hRr hRc hVr hVc hReal hmr hmc
  exact ⟨t, hok, hNm, h1, h2, h3, h4⟩

theorem mkMat_eta (M : Mat) (f : ℕ → ℕ → ℂ) (hf : ∀ i j, f i j = M.entry i j) :
    Mat.mk M.rows M.cols f = M := by
  have hfe : f = M.entry := funext fun i => funext fun j => hf i j
  rw [hfe]

/-- Behaviour of `displace(alpha)`: the length check passes and the single targeted block
of `R` is shifted. -/
theorem displace_ok (st : gaussian_state) (a : ℂ) :
    displace st a = .ok { st with R := Mat.mk st.R.rows st.R.cols (fun i j =>
      if 2 * 0 ≤ i ∧ i < 2 * 0 + 2 then
        st.R.entry i j + (if i = 2 * 0 then 2 * (a.re : ℂ) else 2 * (a.im : ℂ))
      else st.R.entry i j) } := rfl

theorem squeezeMatrix_single_entry (Nm : ℕ) (r : ℝ) :
    ∀ i j, (squeezeMatrix Nm [r] [0]).entry i j = if i = j then sqd r i else 0 := by
  intro i j
  show (if (2 * 0 ≤ i ∧ i < 2 * 0 + 2) ∧ (2 * 0 ≤ j ∧ j < 2 * 0 + 2) then
      (if i = j then (if i = 2 * 0 then ((Real.exp (-r) : ℝ) : ℂ) else ((Real.exp r : ℝ) : ℂ))
        else 0)
    else (if i = j then 1 else 0)) = if i = j then sqd r i else 0
  unfold sqd
  split_ifs <;> first | rfl | omega

theorem squeezeMatrix_single_rows (Nm : ℕ) (r : ℝ) :
    (squeezeMatrix Nm [r] [0]).rows = 2 * Nm := rfl

theorem squeezeMatrix_single_cols (Nm : ℕ) (r : ℝ) :
    (squeezeMatrix Nm [r] [0]).cols = 2 * Nm := rfl

theorem sqd_cancel (r : ℝ) (i : ℕ) : sqd (-r) i * sqd r i = 1 := by
  unfold sqd
  split_ifs
  · rw [neg_neg, ← Complex.ofReal_mul, ← Real.exp_add]
    norm_num
  · rw [← Complex.ofReal_mul, ← Real.exp_add]
    norm_num
  · norm_num

/-- Behaviour of `squeeze(r)` on a well-formed state: the shape checks pass and the state
is updated with `R ← S@R`, `V ← (S@V)@S`. -/
theorem squeeze_ok (st : gaussian_state) (r : ℝ)
    (hRr : st.R.rows = 2 * st.N_modes) (hVr : st.V.rows = 2 * st.N_modes)
    (hVc : st.V.cols = 2 * st.N_modes) :
    squeeze st r = .ok { st with
      R := (squeezeMatrix st.N_modes [r] [0]).mulRaw st.R
      V := ((squeezeMatrix st.N_modes [r] [0]).mulRaw st.V).mulRaw
        (squeezeMatrix st.N_modes [r] [0]) } := by
  unfold squeeze
  simp only [squeezeL]
  rw [if_pos (show ([r] : List ℝ).length = ([0] : List ℕ).length from rfl)]
  rw [npMatmul_ok (by rw [squeezeMatrix_single_cols, hRr])]
  simp only []
  rw [npMatmul_ok (by rw [squeezeMatrix_single_cols, hVr])]
  simp only []
  rw [npMatmul_ok (by
    show ((squeezeMatrix st.N_modes [r] [0]).mulRaw st.V).cols =
      (squeezeMatrix st.N_modes [r] [0]).rows
    rw [show ((squeezeMatrix st.N_modes [r] [0]).mulRaw st.V).cols = st.V.cols from rfl,
      hVc, squeezeMatrix_single_rows])]

/-- C8: `displace(alpha)` followed by `displace(-alpha)` restores the mean
vector exactly, and `squeeze(r)` followed by `squeeze(-r)` restores the
covariance matrix exactly (entrywise), on every well-formed state. -/
theorem claim_C8_roundtrips (s : gaussian_state) (alpha : ℂ) (r : ℝ)
    (hRr : s.R.rows = 2 * s.N_modes) (hRc : s.R.cols = 1)
    (hVr : s.V.rows = 2 * s.N_modes) (hVc : s.V.cols = 2 * s.N_modes) :
    (∃ s1 s2, displace s alpha = .ok s1 ∧ displace s1 (-alpha) = .ok s2 ∧ s2.R = s.R) ∧
    (∃ u1 u2, squeeze s r = .ok u1 ∧ squeeze u1 (-r) = .ok u2 ∧ u2.V.EqOn s.V) := by
  constructor
  · refine ⟨_, _, displace_ok s alpha, displace_ok _ (-alpha), ?_⟩
    refine mkMat_eta s.R _ ?_
    intro i j
    simp only []
    by_cases hc : 2 * 0 ≤ i ∧ i < 2 * 0 + 2
    · simp only [if_pos hc]
      by_cases h0 : i = 2 * 0
      · simp only [if_pos h0, Complex.neg_re]
        push_cast
        ring
      · simp only [if_neg h0, Complex.neg_im]
        push_cast
        ring
    · simp only [if_neg hc]
  · have h1 := squeeze_ok s r hRr hVr hVc
    set u1 : gaussian_state := { s with
      R := (squeezeMatrix s.N_modes [r] [0]).mulRaw s.R
      V := ((squeezeMatrix s.N_modes [r] [0]).mulRaw s.V).mulRaw
        (squeezeMatrix s.N_modes [r] [0]) } with hu1def
    have h2 := squeeze_ok u1 (-r) rfl rfl rfl
    refine ⟨u1, _, h1, h2, ?_, ?_, ?_⟩
    · show 2 * s.N_modes = s.V.rows
      rw [hVr]
    · show 2 * s.N_modes = s.V.cols
      rw [hVc]
    · intro i hi j hj
      have hi2 : i < 2 * s.N_modes := by simpa using hi
      have hj2 : j < 2 * s.N_modes := by simpa using hj
      show (((squeezeMatrix s.N_modes [-r] [0]).mulRaw u1.V).mulRaw
        (squeezeMatrix s.N_modes [-r] [0])).entry i j = s.V.entry i j
      rw [mulRaw_diagLike_right (n := 2 * s.N_modes)
          (show ((squeezeMatrix s.N_modes [-r] [0]).mulRaw u1.V).cols = 2 * s.N_modes from rfl)
          (squeezeMatrix_single_entry s.N_modes (-r)) hj2,
        mulRaw_diagLike_left (n := 2 * s.N_modes)
          (squeezeMatrix_single_cols s.N_modes (-r)) (squeezeMatrix_single_entry s.N_modes (-r))
          hi2]
      show sqd (-r) i * ((((squeezeMatrix s.N_modes [r] [0]).mulRaw s.V).mulRaw
        (squeezeMatrix s.N_modes [r] [0])).entry i j) * sqd (-r) j = s.V.entry i j
      rw [mulRaw_diagLike_right (n := 2 * s.N_modes)
          (show ((squeezeMatrix s.N_modes [r] [0]).mulRaw s.V).cols = 2 * s.N_modes from hVc)
          (squeezeMatrix_single_entry s.N_modes r) hj2,
        mulRaw_diagLike_left (n := 2 * s.N_modes)
          (squeezeMatrix_single_cols s.N_modes r) (squeezeMatrix_single_entry s.N_modes r) hi2]
      calc sqd (-r) i * (sqd r i * s.V.entry i j * sqd r j) * sqd (-r) j
          = (sqd (-r) i * sqd r i) * ((sqd (-r) j * sqd r j) * s.V.entry i j) := by ring
        _ = s.V.entry i j := by
            rw [sqd_cancel, sqd_cancel, one_mul, one_mul]

/-- C8 witness: the round trips on the vacuum state with `alpha = 1 + i`,
`r = 1`. -/
theorem claim_C8_witness :
    (∃ s1 s2, displace vacuumState (1 + Complex.I) = .ok s1 ∧
      displace s1 (-(1 + Complex.I)) = .ok s2 ∧ s2.R = vacuumState.R) ∧
    (∃ u1 u2, squeeze vacuumState 1 = .ok u1 ∧ squeeze u1 (-1) = .ok u2 ∧
      u2.V.EqOn vacuumState.V) :=
  claim_C8_roundtrips vacuumState (1 + Complex.I) 1 rfl rfl rfl rfl

/-- C4 witness: measuring the last mode of the three-mode state `sC4`
returns a two-mode conditional state. -/
theorem claim_C4_witness :
    ∃ t, measurement_homodyne sC4 (zerosMat 2 1) = .ok t ∧ t.N_modes = 2 := by
  obtain ⟨t, hok, hNm, -, -, -, -⟩ :=
    claim_C4_homodyne_last_mode sC4 2 (zerosMat 2 1) rfl rfl rfl rfl rfl
      (fun i _ => by simp [sC4, zerosMat]) rfl rfl
  exact ⟨t, hok, hNm⟩

end

end QGT
